import Mathlib

/-!
# Minisweeper board engine: a shallow embedding and verification

This file embeds the Minesweeper board engine of `minisweeper.py` (the
`Cell`/`Board` data model with mine placement, flood-fill reveal, flag
toggling and win detection), the chord composite of `game.py`
(`MinesweeperApp.on_chord`, restricted to its effect on the board), and
the difficulty preset table of `difficulty.py`, and proves the spec's
claims about them.

Modelling conventions:
* Python `int` becomes `Int`; list indices are converted with `Int.toNat`
  after the `in_bounds` checks that the source performs.
* The grid is a `List (List Cell)` addressed as `grid[y][x]`, as in the
  source.  Reads out of physical range return a default `Cell`; they are
  never reached on well-formed boards (`Board.WF`), which is the shape
  every board constructed by the source has.
* `random.sample(candidates, k)` is modelled by passing the sampled list
  explicitly; `ValidSample` states exactly what `random.sample`
  guarantees (distinct elements of the candidate pool, `k` of them).
* The iterative flood fill is given explicit fuel; the termination
  theorem (claim C9) proves the fuel used by `reveal` always suffices,
  so the embedding computes the same fixed point the `while` loop does.
-/

/-- One grid position (`Cell` dataclass): `mine`, `revealed`, `flagged`,
`adj` (adjacent mine count). -/
structure Cell where
  mine : Bool := false
  revealed : Bool := false
  flagged : Bool := false
  adj : Int := 0
deriving DecidableEq, Repr

instance : Inhabited Cell := ⟨{}⟩

/-- The board aggregate (`Board.__init__` fields): dimensions, mine
target, the `height × width` grid addressed `grid[y][x]`, the lazy
placement flag and the revealed-cell counter. -/
structure Board where
  w : Int
  h : Int
  mine_target : Int
  grid : List (List Cell)
  mines_placed : Bool
  revealed_count : Int
deriving DecidableEq, Repr

/-- Construction errors: `ValueError "width and height must be positive"`
and `ValueError "mines must be 1..max"` in the source, named as in the
spec's error taxonomy. -/
inductive BoardError where
  | invalidDimensions
  | invalidMineCount
deriving DecidableEq, Repr

/-- `Board.__init__`: validates dimensions, then the mine count
(`0 < mines ≤ width*height - 1`), then allocates the all-default grid. -/
def Board.new (width height mines : Int) : Except BoardError Board :=
  if width ≤ 0 ∨ height ≤ 0 then .error .invalidDimensions
  else if ¬ (0 < mines ∧ mines ≤ width * height - 1) then .error .invalidMineCount
  else .ok
    { w := width
      h := height
      mine_target := mines
      grid := List.replicate height.toNat (List.replicate width.toNat {})
      mines_placed := false
      revealed_count := 0 }

/-- `Board.in_bounds`. -/
def Board.in_bounds (b : Board) (x y : Int) : Bool :=
  0 ≤ x && x < b.w && 0 ≤ y && y < b.h

/-- The eight Moore offsets `(dx, dy)`, in the iteration order of
`Board.neighbors` (`dy` outer, `dx` inner, `(0,0)` skipped). -/
def nbrOffsets : List (Int × Int) :=
  [(-1, -1), (0, -1), (1, -1), (-1, 0), (1, 0), (-1, 1), (0, 1), (1, 1)]

/-- `Board.neighbors`: the in-bounds Moore neighborhood of `(x, y)`, in
source iteration order. -/
def Board.neighbors (b : Board) (x y : Int) : List (Int × Int) :=
  (nbrOffsets.map (fun d => (x + d.1, y + d.2))).filter (fun p => b.in_bounds p.1 p.2)

/-- Read `grid[y][x]` (default cell out of physical range; unreachable on
well-formed boards behind the source's bounds checks). -/
def Board.getCell (b : Board) (x y : Int) : Cell :=
  (b.grid.getD y.toNat []).getD x.toNat {}

/-- Write `grid[y][x] := c`. -/
def Board.setCell (b : Board) (x y : Int) (c : Cell) : Board :=
  { b with grid := b.grid.set y.toNat ((b.grid.getD y.toNat []).set x.toNat c) }

/-- `all_coords` inside `place_mines_excluding`: every coordinate, in
`y`-major order as in the source. -/
def Board.allCoords (b : Board) : List (Int × Int) :=
  (List.range b.h.toNat).flatMap (fun y =>
    (List.range b.w.toNat).map (fun x => (Int.ofNat x, Int.ofNat y)))

/-- The candidate pool of `place_mines_excluding`: all coordinates minus
the safe zone, widened to all-but-the-clicked-cell when too small. -/
def Board.mineCandidates (b : Board) (safe_x safe_y : Int) : List (Int × Int) :=
  let excluded : List (Int × Int) := (safe_x, safe_y) :: b.neighbors safe_x safe_y
  let candidates := b.allCoords.filter (fun c => !excluded.contains c)
  if (candidates.length : Int) < b.mine_target then
    b.allCoords.filter (fun c => c != (safe_x, safe_y))
  else candidates

/-- What `random.sample(candidates, mine_target)` guarantees about its
result: distinct elements of the pool, `mine_target` of them. -/
def ValidSample (b : Board) (safe_x safe_y : Int) (sample : List (Int × Int)) : Prop :=
  sample.Nodup ∧ (sample.length : Int) = b.mine_target ∧
    ∀ p ∈ sample, p ∈ b.mineCandidates safe_x safe_y

instance (b : Board) (sx sy : Int) (s : List (Int × Int)) :
    Decidable (ValidSample b sx sy s) := by
  unfold ValidSample; infer_instance

/-- The `for x, y in mines: grid[y][x].mine = True` loop. -/
def Board.setMines (b : Board) (ms : List (Int × Int)) : Board :=
  ms.foldl (fun bb p => bb.setCell p.1 p.2 { bb.getCell p.1 p.2 with mine := true }) b

/-- The adjacency recomputation loop of `place_mines_excluding`: for each
non-mine cell, `adj` becomes the number of mined neighbors.  (The source
mutates `adj` fields in place while reading only `mine` fields, so
rebuilding each cell from the post-mine grid is the same computation.) -/
def Board.computeAdj (b : Board) : Board :=
  { b with
    grid := (List.range b.h.toNat).map (fun y =>
      (List.range b.w.toNat).map (fun x =>
        let c := b.getCell (Int.ofNat x) (Int.ofNat y)
        if c.mine then c
        else { c with
          adj := (((b.neighbors (Int.ofNat x) (Int.ofNat y)).filter
            (fun p => (b.getCell p.1 p.2).mine)).length : Int) })) }

/-- `Board.place_mines_excluding`, with the `random.sample` result passed
explicitly: set the sampled mines, recompute adjacencies, flip
`mines_placed`. -/
def Board.place_mines_excluding (b : Board) (safe_x safe_y : Int)
    (sample : List (Int × Int)) : Board :=
  { (b.setMines sample).computeAdj with mines_placed := true }

/-- `cell.revealed = True; revealed_count += 1`, the one way any cell is
ever revealed. -/
def Board.markRevealed (b : Board) (x y : Int) : Board :=
  let c := b.getCell x y
  { b.setCell x y { c with revealed := true } with revealed_count := b.revealed_count + 1 }

/-- Number of in-bounds cells not yet revealed; the flood-fill fuel. -/
def Board.unrevealed (b : Board) : Nat :=
  (b.allCoords.filter (fun p => !(b.getCell p.1 p.2).revealed)).length

/-- Number of in-bounds cells revealed. -/
def Board.revealedCells (b : Board) : Nat :=
  (b.allCoords.filter (fun p => (b.getCell p.1 p.2).revealed)).length

/-- The `for nx, ny in self.neighbors(cx, cy)` body of the flood fill:
skip revealed, flagged and mined neighbors, reveal the rest, push the
zero-adjacency ones.  (The source's `visited` set is checked and updated
but never guards anything, so it has no observable effect and is not
modelled.)  The returned stack lists the pushed cells on top of `stack`,
last push first, matching `list.append`/`list.pop`. -/
def Board.floodProcess (b : Board) (stack : List (Int × Int)) :
    List (Int × Int) → Board × List (Int × Int)
  | [] => (b, stack)
  | (nx, ny) :: rest =>
    let ncell := b.getCell nx ny
    if ncell.revealed || ncell.flagged then b.floodProcess stack rest
    else if ncell.mine then b.floodProcess stack rest
    else
      let b' := b.markRevealed nx ny
      let stack' := if ncell.adj == 0 then (nx, ny) :: stack else stack
      b'.floodProcess stack' rest

/-- The `while stack:` loop of the flood fill, with explicit fuel.  The
`Bool` result records whether the stack was exhausted (claim C9 proves it
always is for the fuel `reveal` supplies). -/
def Board.floodLoop : Nat → Board → List (Int × Int) → Board × Bool
  | _, b, [] => (b, true)
  | 0, b, _ :: _ => (b, false)
  | fuel + 1, b, (cx, cy) :: rest =>
    let r := b.floodProcess rest (b.neighbors cx cy)
    Board.floodLoop fuel r.1 r.2

/-- `Board.reveal`, returning `(board', ok, hit_mine)`.  The
`random.sample` result used by a lazily triggered mine placement is the
`sample` argument. -/
def Board.reveal (b : Board) (sample : List (Int × Int)) (x y : Int) :
    Board × Bool × Bool :=
  if !b.in_bounds x y then (b, false, false)
  else
    let cell := b.getCell x y
    if cell.flagged then (b, false, false)
    else if cell.revealed then (b, true, false)
    else
      let b1 := if !b.mines_placed then b.place_mines_excluding x y sample else b
      let cell1 := b1.getCell x y
      let b2 := b1.markRevealed x y
      if cell1.mine then (b2, true, true)
      else if cell1.adj == 0 then
        ((Board.floodLoop (b2.unrevealed + 1) b2 [(x, y)]).1, true, false)
      else (b2, true, false)

/-- `Board.toggle_flag`, returning `(board', changed)`. -/
def Board.toggle_flag (b : Board) (x y : Int) : Board × Bool :=
  if !b.in_bounds x y then (b, false)
  else
    let cell := b.getCell x y
    if cell.revealed then (b, false)
    else (b.setCell x y { cell with flagged := !cell.flagged }, true)

/-- `Board.all_safe_revealed`. -/
def Board.all_safe_revealed (b : Board) : Bool :=
  b.revealed_count == b.w * b.h - b.mine_target

/-- Well-formedness: the grid physically has `h` rows of `w` cells and
the dimensions are positive.  Every board the source can construct has
this shape. -/
def Board.WF (b : Board) : Prop :=
  0 < b.w ∧ 0 < b.h ∧ b.grid.length = b.h.toNat ∧ ∀ row ∈ b.grid, row.length = b.w.toNat

instance (b : Board) : Decidable b.WF := by
  unfold Board.WF; infer_instance

/-- Validity of a sample for a `reveal` call: constrains the sample only
when the call will actually trigger mine placement. -/
def ValidSampleFor (b : Board) (sample : List (Int × Int)) (x y : Int) : Prop :=
  b.mines_placed = false → ValidSample b x y sample

instance (b : Board) (s : List (Int × Int)) (x y : Int) :
    Decidable (ValidSampleFor b s x y) := by
  unfold ValidSampleFor; infer_instance

/-- Board states reachable through the engine's public operations:
construction, reveal (with any random choice `random.sample` could have
made), and flag toggling.  The chord composite only chains these. -/
inductive Reachable : Board → Prop where
  | init : ∀ (w h m : Int) (b : Board), Board.new w h m = .ok b → Reachable b
  | reveal : ∀ (b : Board) (s : List (Int × Int)) (x y : Int), Reachable b →
      ValidSampleFor b s x y → Reachable (b.reveal s x y).1
  | flag : ∀ (b : Board) (x y : Int), Reachable b → Reachable (b.toggle_flag x y).1

/-- The board-state effect of `MinesweeperApp.on_chord`'s reveal loop:
reveal each unflagged unrevealed neighbor in turn, stopping at the first
mine hit.  Returns `(board', hit)`. -/
def Board.chordNeighbors (b : Board) (sample : List (Int × Int)) :
    List (Int × Int) → Board × Bool
  | [] => (b, false)
  | (nx, ny) :: rest =>
    let ncell := b.getCell nx ny
    if !ncell.flagged && !ncell.revealed then
      let r := b.reveal sample nx ny
      if r.2.2 then (r.1, true)
      else r.1.chordNeighbors sample rest
    else b.chordNeighbors sample rest

/-- The board-state effect of `MinesweeperApp.on_chord`: no-op unless the
cell is revealed with positive `adj` and exactly `adj` flagged neighbors;
otherwise reveal the eligible neighbors via `chordNeighbors`. -/
def Board.chord (b : Board) (sample : List (Int × Int)) (x y : Int) : Board × Bool :=
  let c := b.getCell x y
  if !c.revealed || c.adj ≤ 0 then (b, false)
  else
    let flagged := ((b.neighbors x y).filter (fun p => (b.getCell p.1 p.2).flagged)).length
    if (flagged : Int) ≠ c.adj then (b, false)
    else b.chordNeighbors sample (b.neighbors x y)

deriving instance DecidableEq for Except

/-- `Difficulty` dataclass of `difficulty.py`. -/
structure Difficulty where
  name : String
  width : Int
  height : Int
  mines : Int
deriving DecidableEq, Repr

/-- The `_LEVELS` preset table of `difficulty.py`. -/
def _LEVELS : List (String × Difficulty) :=
  [("easy", ⟨"easy", 9, 9, 10⟩),
   ("medium", ⟨"medium", 16, 16, 40⟩),
   ("hard", ⟨"hard", 30, 16, 99⟩),
   ("too hard", ⟨"too hard", 30, 24, 180⟩)]

/-- Helper for `normalize_name`: split a character list on whitespace
runs, as Python's no-argument `str.split` does. -/
def wordsAux : List Char → List Char → List (List Char)
  | [], acc => if acc.isEmpty then [] else [acc.reverse]
  | c :: cs, acc =>
    if c.isWhitespace then
      if acc.isEmpty then wordsAux cs [] else acc.reverse :: wordsAux cs []
    else wordsAux cs (c :: acc)

/-- Helper for `normalize_name`: rejoin words with single spaces, as
Python's `" ".join`. -/
def joinSpace : List (List Char) → List Char
  | [] => []
  | [w] => w
  | w :: ws => w ++ ' ' :: joinSpace ws

/-- `normalize_name` of `difficulty.py`:
`name.strip().lower().replace("_", " ").replace("-", " ")` then collapse
whitespace runs, rendered at character level (ASCII lowering). -/
def normalize_name (name : String) : String :=
  let stripped :=
    ((name.toList.dropWhile Char.isWhitespace).reverse.dropWhile Char.isWhitespace).reverse
  let lowered := stripped.map Char.toLower
  let replaced := lowered.map (fun c => if c == '_' || c == '-' then ' ' else c)
  ⟨joinSpace (wordsAux replaced [])⟩

/-- `get_difficulty` of `difficulty.py`; the `ValueError` on unknown
names becomes `none`. -/
def get_difficulty (name : String) : Option Difficulty :=
  _LEVELS.lookup (normalize_name name)

/-- Chebyshev-distance-1 adjacency: the spec's notion of Moore
neighborhood, stated independently of `Board.neighbors`. -/
def mooreAdjacent (p q : Int × Int) : Bool :=
  (p != q) && decide ((p.1 - q.1).natAbs ≤ 1) && decide ((p.2 - q.2).natAbs ≤ 1)

/-- Brute-force recomputation of a cell's adjacent-mine count, as the
spec's testable property asks: the number of in-bounds cells at Chebyshev
distance 1 that are mines. -/
def Board.mineNbrCountSpec (b : Board) (x y : Int) : Nat :=
  (b.allCoords.filter (fun q => mooreAdjacent (x, y) q && (b.getCell q.1 q.2).mine)).length

/-- Number of mines on the board. -/
def Board.mineCount (b : Board) : Nat :=
  (b.allCoords.filter (fun p => (b.getCell p.1 p.2).mine)).length

/-- A cell the flood fill may reveal: in bounds, not yet revealed, not
flagged, not a mine — all relative to the board state at the start of
the `reveal` call. -/
def Eligible (b : Board) (p : Int × Int) : Prop :=
  b.in_bounds p.1 p.2 = true ∧ (b.getCell p.1 p.2).revealed = false ∧
    (b.getCell p.1 p.2).flagged = false ∧ (b.getCell p.1 p.2).mine = false

instance (b : Board) (p : Int × Int) : Decidable (Eligible b p) := by
  unfold Eligible; infer_instance

/-- The flood-fill region of a zero-adjacency reveal at `(x, y)`,
relative to the board state `b` at the start of the call: eligible
neighbors of the clicked cell, grown through eligible zero-adjacency
members. -/
inductive Flood (b : Board) (x y : Int) : Int × Int → Prop where
  | start : ∀ p, p ∈ b.neighbors x y → Eligible b p → Flood b x y p
  | step : ∀ q p, Flood b x y q → (b.getCell q.1 q.2).adj = 0 →
      p ∈ b.neighbors q.1 q.2 → Eligible b p → Flood b x y p

/-! Concrete boards used by counterexamples and witnesses. -/

/-- A fresh 2×2 board with one mine to place. -/
def demoBoard : Board := ⟨2, 2, 1, [[{}, {}], [{}, {}]], false, 0⟩

/-- `demoBoard` after a first reveal at `(0, 0)` whose sample put the
mine at `(1, 1)`. -/
def demoPlaced : Board := (demoBoard.reveal [(1, 1)] 0 0).1

/-- `demoPlaced` after also revealing `(0, 1)`: every safe cell but
`(1, 0)` is revealed. -/
def demoTwo : Board := (demoPlaced.reveal [] 0 1).1

/-- `demoBoard` with `(0, 0)` flagged. -/
def demoFlagged : Board := (demoBoard.toggle_flag 0 0).1

/-- A fresh 3×3 board with one mine to place. -/
def demo3 : Board := ⟨3, 3, 1, [[{}, {}, {}], [{}, {}, {}], [{}, {}, {}]], false, 0⟩

/-- `demo3` after a first reveal at `(1, 1)` whose sample put the mine
at `(2, 2)`: only `(1, 1)` is revealed (its adjacency is 1). -/
def demo3Placed : Board := (demo3.reveal [(2, 2)] 1 1).1

/-- `demo3Placed` with the mine correctly flagged: the revealed `(1, 1)`
now has exactly `adj` flagged neighbors, so a chord there fires. -/
def demo3Chordable : Board := (demo3Placed.toggle_flag 2 2).1

/-! ## Basic grid-access lemmas -/

theorem getD_set_self {α} (l : List α) (i : Nat) (c d : α) (h : i < l.length) :
    (l.set i c).getD i d = c := by
  simp [List.getD_eq_getElem?_getD, List.getElem?_set_self h]

theorem getD_set_ne {α} (l : List α) (i j : Nat) (c d : α) (h : i ≠ j) :
    (l.set i c).getD j d = l.getD j d := by
  simp [List.getD_eq_getElem?_getD, List.getElem?_set_ne h]

theorem Board.setCell_w (b : Board) (x y : Int) (c : Cell) : (b.setCell x y c).w = b.w := rfl

theorem Board.setCell_h (b : Board) (x y : Int) (c : Cell) : (b.setCell x y c).h = b.h := rfl

theorem Board.setCell_mine_target (b : Board) (x y : Int) (c : Cell) :
    (b.setCell x y c).mine_target = b.mine_target := rfl

theorem Board.setCell_mines_placed (b : Board) (x y : Int) (c : Cell) :
    (b.setCell x y c).mines_placed = b.mines_placed := rfl

theorem Board.setCell_revealed_count (b : Board) (x y : Int) (c : Cell) :
    (b.setCell x y c).revealed_count = b.revealed_count := rfl

/-- In-bounds coordinates address a physical row of a well-formed grid. -/
theorem Board.row_exists (b : Board) (hwf : b.WF) {x y : Int}
    (hib : b.in_bounds x y = true) :
    y.toNat < b.grid.length ∧ x.toNat < (b.grid.getD y.toNat []).length := by
  obtain ⟨-, -, hlen, hrows⟩ := hwf
  simp only [Board.in_bounds, Bool.and_eq_true, decide_eq_true_eq] at hib
  obtain ⟨⟨⟨hx0, hxw⟩, hy0⟩, hyh⟩ := hib
  have hy : y.toNat < b.h.toNat := by omega
  have hyg : y.toNat < b.grid.length := by omega
  refine ⟨hyg, ?_⟩
  have hmem : b.grid.getD y.toNat [] ∈ b.grid := by
    rw [List.getD_eq_getElem?_getD, List.getElem?_eq_getElem hyg]
    exact List.getElem_mem hyg
  rw [hrows _ hmem]
  omega

theorem Board.getCell_setCell_self (b : Board) (hwf : b.WF) {x y : Int}
    (hib : b.in_bounds x y = true) (c : Cell) :
    (b.setCell x y c).getCell x y = c := by
  obtain ⟨hy, hx⟩ := b.row_exists hwf hib
  simp only [Board.getCell, Board.setCell]
  rw [getD_set_self _ _ _ _ (by simpa using hy), getD_set_self _ _ _ _ hx]

theorem Board.getCell_setCell_ne (b : Board) {x y x' y' : Int}
    (hne : x.toNat ≠ x'.toNat ∨ y.toNat ≠ y'.toNat) (c : Cell) :
    (b.setCell x y c).getCell x' y' = b.getCell x' y' := by
  simp only [Board.getCell, Board.setCell]
  rcases hne with hne | hne
  · by_cases hyy : y.toNat = y'.toNat
    · rw [hyy]
      by_cases hylen : y'.toNat < b.grid.length
      · rw [getD_set_self _ _ _ _ (by simpa using hylen), getD_set_ne _ _ _ _ _ hne]
      · rw [List.set_eq_of_length_le (by omega)]
    · rw [getD_set_ne _ _ _ _ _ hyy]
  · rw [getD_set_ne _ _ _ _ _ hne]

/-- Distinct in-bounds coordinates stay distinct after `Int.toNat`. -/
theorem toNat_ne_of_ne (b : Board) {p q : Int × Int}
    (hp : b.in_bounds p.1 p.2 = true) (hq : b.in_bounds q.1 q.2 = true)
    (hne : p ≠ q) : p.1.toNat ≠ q.1.toNat ∨ p.2.toNat ≠ q.2.toNat := by
  simp only [Board.in_bounds, Bool.and_eq_true, decide_eq_true_eq] at hp hq
  by_contra hcon
  push_neg at hcon
  apply hne
  have h1 : p.1 = q.1 := by omega
  have h2 : p.2 = q.2 := by omega
  exact Prod.ext h1 h2

theorem Board.setCell_WF (b : Board) (hwf : b.WF) (x y : Int) (c : Cell) :
    (b.setCell x y c).WF := by
  obtain ⟨hw, hh, hlen, hrows⟩ := hwf
  refine ⟨hw, hh, by simp only [Board.setCell, List.length_set]; exact hlen, ?_⟩
  intro row hrow
  simp only [Board.setCell] at hrow
  by_cases hylen : y.toNat < b.grid.length
  · rcases List.mem_or_eq_of_mem_set hrow with h | h
    · exact hrows _ h
    · subst h
      rw [List.length_set]
      apply hrows
      rw [List.getD_eq_getElem?_getD, List.getElem?_eq_getElem hylen]
      exact List.getElem_mem hylen
  · rw [List.set_eq_of_length_le (by omega)] at hrow
    exact hrows _ hrow

theorem Board.markRevealed_WF (b : Board) (hwf : b.WF) (x y : Int) :
    (b.markRevealed x y).WF := by
  have := b.setCell_WF hwf x y { b.getCell x y with revealed := true }
  exact this

/-! ## Coordinate-list lemmas -/

theorem Board.mem_allCoords (b : Board) (p : Int × Int) :
    p ∈ b.allCoords ↔ b.in_bounds p.1 p.2 = true := by
  obtain ⟨px, py⟩ := p
  simp only [Board.allCoords, List.mem_flatMap, List.mem_map, List.mem_range,
    Board.in_bounds, Bool.and_eq_true, decide_eq_true_eq, Prod.mk.injEq,
    Int.ofNat_eq_natCast]
  constructor
  · rintro ⟨y, hy, x, hx, hxe, hye⟩
    omega
  · rintro ⟨⟨⟨hx0, hxw⟩, hy0⟩, hyh⟩
    exact ⟨py.toNat, by omega, px.toNat, by omega, by omega, by omega⟩

theorem Board.nodup_allCoords (b : Board) : b.allCoords.Nodup := by
  unfold Board.allCoords
  rw [List.nodup_flatMap]
  constructor
  · intro y hy
    refine List.Nodup.map ?_ (List.nodup_range _)
    intro a c hac
    simp only [Int.ofNat_eq_natCast, Prod.mk.injEq] at hac
    omega
  · refine (List.pairwise_lt_range _).imp ?_
    intro y y' hyy' p hp hq
    simp only [List.mem_map, List.mem_range] at hp hq
    obtain ⟨x, hx, rfl⟩ := hp
    obtain ⟨x', hx', heq⟩ := hq
    have h2 := congrArg Prod.snd heq
    simp only [Int.ofNat_eq_natCast] at h2
    omega

theorem Board.length_allCoords (b : Board) : b.allCoords.length = b.w.toNat * b.h.toNat := by
  unfold Board.allCoords
  rw [List.length_flatMap]
  have hmap : List.map
      (List.length ∘ fun y => List.map (fun x => (Int.ofNat x, Int.ofNat y)) (List.range b.w.toNat))
      (List.range b.h.toNat) = List.map (fun _ => b.w.toNat) (List.range b.h.toNat) := by
    apply List.map_congr_left
    intro y hy
    simp
  rw [hmap, List.map_const', List.length_range, List.sum_replicate, smul_eq_mul, Nat.mul_comm]

/-- Counting helper: if `f` and `g` agree everywhere on a duplicate-free
list except at one member where `f` is false and `g` true, the `f`-count
is one less than the `g`-count. -/
theorem length_filter_update {α} (l : List α) (hl : l.Nodup) (a : α) (ha : a ∈ l)
    (f g : α → Bool) (hfa : f a = false) (hga : g a = true)
    (hfg : ∀ c ∈ l, c ≠ a → f c = g c) :
    (l.filter f).length + 1 = (l.filter g).length := by
  induction l with
  | nil => cases ha
  | cons x xs ih =>
    have hnd := List.nodup_cons.mp hl
    rcases List.mem_cons.mp ha with rfl | hmem
    · have hxs : ∀ c ∈ xs, f c = g c := fun c hc =>
        hfg c (List.mem_cons_of_mem _ hc) (fun hca => hnd.1 (hca ▸ hc))
      have hfilt : xs.filter f = xs.filter g := List.filter_congr hxs
      simp [List.filter_cons, hfa, hga, hfilt]
    · have hx_ne : x ≠ a := fun h => hnd.1 (h ▸ hmem)
      have hfx : f x = g x := hfg x (List.mem_cons_self _ _) hx_ne
      have ih' := ih hnd.2 hmem (fun c hc hca => hfg c (List.mem_cons_of_mem _ hc) hca)
      by_cases hgx : g x = true
      · simp only [List.filter_cons, hfx, hgx, if_true, List.length_cons]
        omega
      · simp only [Bool.not_eq_true] at hgx
        simp [List.filter_cons, hfx, hgx, ih']

/-! ## Frame lemmas for markRevealed -/

theorem Board.markRevealed_w (b : Board) (x y : Int) : (b.markRevealed x y).w = b.w := rfl

theorem Board.markRevealed_h (b : Board) (x y : Int) : (b.markRevealed x y).h = b.h := rfl

theorem Board.markRevealed_mine_target (b : Board) (x y : Int) :
    (b.markRevealed x y).mine_target = b.mine_target := rfl

theorem Board.markRevealed_mines_placed (b : Board) (x y : Int) :
    (b.markRevealed x y).mines_placed = b.mines_placed := rfl

theorem Board.markRevealed_count (b : Board) (x y : Int) :
    (b.markRevealed x y).revealed_count = b.revealed_count + 1 := rfl

theorem Board.getCell_markRevealed_self (b : Board) (hwf : b.WF) {x y : Int}
    (hib : b.in_bounds x y = true) :
    (b.markRevealed x y).getCell x y = { b.getCell x y with revealed := true } :=
  b.getCell_setCell_self hwf hib _

theorem Board.getCell_markRevealed_ne (b : Board) {x y x' y' : Int}
    (hne : x.toNat ≠ x'.toNat ∨ y.toNat ≠ y'.toNat) :
    (b.markRevealed x y).getCell x' y' = b.getCell x' y' :=
  b.getCell_setCell_ne hne _

/-- Away from the marked cell nothing changes; at the marked cell only
`revealed` does. -/
theorem Board.getCell_markRevealed (b : Board) (hwf : b.WF) {x y : Int}
    (hib : b.in_bounds x y = true) (x' y' : Int) (hib' : b.in_bounds x' y' = true) :
    (b.markRevealed x y).getCell x' y' =
      if (x', y') = (x, y) then { b.getCell x y with revealed := true }
      else b.getCell x' y' := by
  by_cases heq : (x', y') = (x, y)
  · have h1 : x' = x := congrArg Prod.fst heq
    have h2 : y' = y := congrArg Prod.snd heq
    subst h1
    subst h2
    simp [heq, b.getCell_markRevealed_self hwf hib]
  · rw [if_neg heq]
    refine b.getCell_markRevealed_ne ?_
    have := toNat_ne_of_ne b (p := (x, y)) (q := (x', y')) hib hib' (fun h => heq h.symm)
    tauto

theorem Board.unrevealed_markRevealed (b : Board) (hwf : b.WF) {x y : Int}
    (hib : b.in_bounds x y = true) (hur : (b.getCell x y).revealed = false) :
    (b.markRevealed x y).unrevealed + 1 = b.unrevealed := by
  have hco : (b.markRevealed x y).allCoords = b.allCoords := rfl
  unfold Board.unrevealed
  rw [hco]
  refine length_filter_update b.allCoords b.nodup_allCoords (x, y)
    ((b.mem_allCoords _).mpr hib) _ _ ?_ ?_ ?_
  · simp [b.getCell_markRevealed_self hwf hib]
  · simp [hur]
  · intro p hp hpne
    have hpib := (b.mem_allCoords p).mp hp
    have := toNat_ne_of_ne b (p := (x, y)) (q := p) hib hpib (fun h => hpne h.symm)
    rw [b.getCell_markRevealed_ne (by tauto)]

theorem Board.revealedCells_markRevealed (b : Board) (hwf : b.WF) {x y : Int}
    (hib : b.in_bounds x y = true) (hur : (b.getCell x y).revealed = false) :
    b.revealedCells + 1 = (b.markRevealed x y).revealedCells := by
  have hco : (b.markRevealed x y).allCoords = b.allCoords := rfl
  unfold Board.revealedCells
  rw [hco]
  refine length_filter_update b.allCoords b.nodup_allCoords (x, y)
    ((b.mem_allCoords _).mpr hib) _ _ ?_ ?_ ?_
  · simpa using hur
  · simp [b.getCell_markRevealed_self hwf hib]
  · intro p hp hpne
    have hpib := (b.mem_allCoords p).mp hp
    have := toNat_ne_of_ne b (p := (x, y)) (q := p) hib hpib (fun h => hpne h.symm)
    rw [b.getCell_markRevealed_ne (by tauto)]

/-! ## Neighbors lemmas -/

theorem Board.mem_neighbors_in_bounds (b : Board) {x y : Int} {p : Int × Int}
    (hp : p ∈ b.neighbors x y) : b.in_bounds p.1 p.2 = true := by
  simp only [Board.neighbors, List.mem_filter] at hp
  exact hp.2

theorem Board.neighbors_length_le (b : Board) (x y : Int) : (b.neighbors x y).length ≤ 8 := by
  calc (b.neighbors x y).length
      ≤ (nbrOffsets.map (fun d => (x + d.1, y + d.2))).length := List.length_filter_le _ _
    _ = 8 := by simp [nbrOffsets]

theorem Board.neighbors_nodup (b : Board) (x y : Int) : (b.neighbors x y).Nodup := by
  refine List.Nodup.filter _ (List.Nodup.map ?_ (by decide))
  intro a c hac
  obtain ⟨h1, h2⟩ := Prod.mk.injEq _ _ _ _ ▸ hac
  obtain ⟨a1, a2⟩ := a
  obtain ⟨c1, c2⟩ := c
  simp only [Prod.mk.injEq]
  constructor <;> omega

/-- Characterization of `Board.neighbors`: exactly the in-bounds cells at
Chebyshev distance 1 — the clipped Moore neighborhood of the spec. -/
theorem Board.mem_neighbors (b : Board) (x y : Int) (p : Int × Int) :
    p ∈ b.neighbors x y ↔
      b.in_bounds p.1 p.2 = true ∧ p ≠ (x, y) ∧
        (p.1 - x).natAbs ≤ 1 ∧ (p.2 - y).natAbs ≤ 1 := by
  constructor
  · intro hp
    have hib := b.mem_neighbors_in_bounds hp
    rw [Board.neighbors, List.mem_filter, List.mem_map] at hp
    obtain ⟨⟨d, hd, heq⟩, -⟩ := hp
    have hd8 : (d.1 = -1 ∨ d.1 = 0 ∨ d.1 = 1) ∧ (d.2 = -1 ∨ d.2 = 0 ∨ d.2 = 1) ∧
        ¬(d.1 = 0 ∧ d.2 = 0) := by
      simp only [nbrOffsets, List.mem_cons, List.not_mem_nil, or_false] at hd
      rcases hd with rfl|rfl|rfl|rfl|rfl|rfl|rfl|rfl <;> decide
    obtain ⟨hd1, hd2, hdne⟩ := hd8
    have h1 : x + d.1 = p.1 := congrArg Prod.fst heq
    have h2 : y + d.2 = p.2 := congrArg Prod.snd heq
    refine ⟨hib, fun hc => ?_, by omega, by omega⟩
    have hc1 : p.1 = x := congrArg Prod.fst hc
    have hc2 : p.2 = y := congrArg Prod.snd hc
    omega
  · rintro ⟨hib, hne, h1, h2⟩
    have hne' : p.1 ≠ x ∨ p.2 ≠ y := by
      by_contra hcon
      push_neg at hcon
      exact hne (Prod.ext hcon.1 hcon.2)
    rw [Board.neighbors, List.mem_filter]
    refine ⟨?_, hib⟩
    rw [List.mem_map]
    refine ⟨(p.1 - x, p.2 - y), ?_, ?_⟩
    · have hdx : p.1 - x = -1 ∨ p.1 - x = 0 ∨ p.1 - x = 1 := by omega
      have hdy : p.2 - y = -1 ∨ p.2 - y = 0 ∨ p.2 - y = 1 := by omega
      have hnand : ¬(p.1 - x = 0 ∧ p.2 - y = 0) := by omega
      simp only [nbrOffsets, List.mem_cons, List.not_mem_nil, or_false, Prod.mk.injEq]
      rcases hdx with h3|h3|h3 <;> rcases hdy with h4|h4|h4 <;> simp_all
    · refine Prod.ext ?_ ?_
      · show x + (p.1 - x) = p.1
        omega
      · show y + (p.2 - y) = p.2
        omega

/-- `neighbors` depends only on the dimensions. -/
theorem Board.neighbors_congr {b b' : Board} (hw : b'.w = b.w) (hh : b'.h = b.h)
    (x y : Int) : b'.neighbors x y = b.neighbors x y := by
  unfold Board.neighbors Board.in_bounds
  rw [hw, hh]

/-- `allCoords` depends only on the dimensions. -/
theorem Board.allCoords_congr {b b' : Board} (hw : b'.w = b.w) (hh : b'.h = b.h) :
    b'.allCoords = b.allCoords := by
  unfold Board.allCoords
  rw [hw, hh]

/-- `in_bounds` depends only on the dimensions. -/
theorem Board.in_bounds_congr {b b' : Board} (hw : b'.w = b.w) (hh : b'.h = b.h)
    (x y : Int) : b'.in_bounds x y = b.in_bounds x y := by
  unfold Board.in_bounds
  rw [hw, hh]

/-! ## Mine placement lemmas -/

theorem Board.setMines_fields (b : Board) (ms : List (Int × Int)) :
    (b.setMines ms).w = b.w ∧ (b.setMines ms).h = b.h ∧
      (b.setMines ms).mine_target = b.mine_target ∧
      (b.setMines ms).mines_placed = b.mines_placed ∧
      (b.setMines ms).revealed_count = b.revealed_count := by
  induction ms generalizing b with
  | nil => exact ⟨rfl, rfl, rfl, rfl, rfl⟩
  | cons m rest ih => exact ih _

theorem Board.setMines_WF (b : Board) (hwf : b.WF) (ms : List (Int × Int)) :
    (b.setMines ms).WF := by
  induction ms generalizing b with
  | nil => exact hwf
  | cons m rest ih => exact ih _ (b.setCell_WF hwf _ _ _)

/-- Setting mines at the listed coordinates flips exactly their `mine`
bits. -/
theorem Board.getCell_setMines (b : Board) (hwf : b.WF) (ms : List (Int × Int))
    (hms : ∀ p ∈ ms, b.in_bounds p.1 p.2 = true) {x y : Int}
    (hib : b.in_bounds x y = true) :
    (b.setMines ms).getCell x y =
      if (x, y) ∈ ms then { b.getCell x y with mine := true } else b.getCell x y := by
  induction ms generalizing b with
  | nil => simp [Board.setMines]
  | cons m rest ih =>
    have hmib : b.in_bounds m.1 m.2 = true := hms m (List.mem_cons_self _ _)
    have hstep : b.setMines (m :: rest) =
        (b.setCell m.1 m.2 { b.getCell m.1 m.2 with mine := true }).setMines rest := rfl
    set b1 := b.setCell m.1 m.2 { b.getCell m.1 m.2 with mine := true } with hb1
    have hwf1 : b1.WF := b.setCell_WF hwf _ _ _
    have hibc : ∀ u v : Int, b1.in_bounds u v = b.in_bounds u v := fun u v =>
      Board.in_bounds_congr rfl rfl u v
    have ih' := ih b1 hwf1
      (fun p hp => by rw [hibc]; exact hms p (List.mem_cons_of_mem _ hp))
      (by rw [hibc]; exact hib)
    rw [hstep, ih']
    by_cases heqm : (x, y) = m
    · have hm1 : x = m.1 := congrArg Prod.fst heqm
      have hm2 : y = m.2 := congrArg Prod.snd heqm
      have hself : b1.getCell x y = { b.getCell x y with mine := true } := by
        rw [hm1, hm2, hb1]
        exact b.getCell_setCell_self hwf (by rw [← hm1, ← hm2]; exact hib) _
      by_cases hrest : (x, y) ∈ rest
      · rw [if_pos hrest, if_pos (List.mem_cons.mpr (Or.inl heqm)), hself]
      · rw [if_neg hrest, if_pos (List.mem_cons.mpr (Or.inl heqm)), hself]
    · have hne := toNat_ne_of_ne b (p := (m.1, m.2)) (q := (x, y)) hmib hib
        (fun hc => heqm (by rw [← hc]))
      have hget : b1.getCell x y = b.getCell x y := b.getCell_setCell_ne (by tauto) _
      rw [hget]
      by_cases hrest : (x, y) ∈ rest
      · simp [hrest, List.mem_cons]
      · have : ¬((x, y) ∈ m :: rest) := by
          simp [List.mem_cons, hrest, heqm]
        simp [hrest, this]

theorem Board.computeAdj_w (b : Board) : b.computeAdj.w = b.w := rfl

theorem Board.computeAdj_h (b : Board) : b.computeAdj.h = b.h := rfl

theorem Board.computeAdj_mine_target (b : Board) : b.computeAdj.mine_target = b.mine_target := rfl

theorem Board.computeAdj_mines_placed (b : Board) : b.computeAdj.mines_placed = b.mines_placed := rfl

theorem Board.computeAdj_revealed_count (b : Board) :
    b.computeAdj.revealed_count = b.revealed_count := rfl

theorem getD_map_range {α} (n : Nat) (f : Nat → α) (i : Nat) (d : α) (h : i < n) :
    ((List.range n).map f).getD i d = f i := by
  rw [List.getD_eq_getElem?_getD, List.getElem?_map, List.getElem?_range h]
  rfl

theorem Board.computeAdj_WF (b : Board) (hw : 0 < b.w) (hh : 0 < b.h) : b.computeAdj.WF := by
  refine ⟨hw, hh, by simp [Board.computeAdj], ?_⟩
  intro row hrow
  simp only [Board.computeAdj, List.mem_map] at hrow
  obtain ⟨y, hy, heq⟩ := hrow
  rw [← heq]
  simp
  rfl

/-- What the adjacency pass writes into each in-bounds cell. -/
theorem Board.getCell_computeAdj (b : Board) {x y : Int} (hib : b.in_bounds x y = true) :
    b.computeAdj.getCell x y =
      (if (b.getCell x y).mine then b.getCell x y
       else { b.getCell x y with
         adj := (((b.neighbors x y).filter (fun p => (b.getCell p.1 p.2).mine)).length : Int) }) := by
  have hb : 0 ≤ x ∧ x < b.w ∧ 0 ≤ y ∧ y < b.h := by
    simp only [Board.in_bounds, Bool.and_eq_true, decide_eq_true_eq] at hib
    tauto
  have hxx : Int.ofNat x.toNat = x := by rw [Int.ofNat_eq_natCast]; omega
  have hyy : Int.ofNat y.toNat = y := by rw [Int.ofNat_eq_natCast]; omega
  show ((b.computeAdj.grid.getD y.toNat []).getD x.toNat {}) = _
  have hgrid : b.computeAdj.grid = (List.range b.h.toNat).map (fun yy =>
      (List.range b.w.toNat).map (fun xx =>
        let c := b.getCell (Int.ofNat xx) (Int.ofNat yy)
        if c.mine then c
        else { c with
          adj := (((b.neighbors (Int.ofNat xx) (Int.ofNat yy)).filter
            (fun p => (b.getCell p.1 p.2).mine)).length : Int) })) := rfl
  rw [hgrid, getD_map_range _ _ _ _ (by omega), getD_map_range _ _ _ _ (by omega), hxx, hyy]

/-! ## Candidate-pool lemmas -/

theorem length_filter_not_contains {α} [BEq α] [LawfulBEq α] (l s : List α) (hl : l.Nodup) :
    l.length ≤ (l.filter (fun a => !s.contains a)).length + s.length := by
  have hsplit : l.length = (l.filter (fun a => s.contains a)).length +
      (l.filter (fun a => !s.contains a)).length :=
    List.length_eq_length_filter_add _
  have hsub : (l.filter (fun a => s.contains a)).length ≤ s.length := by
    refine List.Subperm.length_le (List.subperm_of_subset (hl.filter _) ?_)
    intro a ha
    have hm := List.of_mem_filter ha
    exact List.elem_iff.mp (by simpa using hm)
  omega

theorem length_filter_mem {α} (l s : List α) (hl : l.Nodup) (hs : s.Nodup)
    (hsub : ∀ a ∈ s, a ∈ l) (f : α → Bool) (hf : ∀ a, f a = true ↔ a ∈ s) :
    (l.filter f).length = s.length := by
  have hperm : (l.filter f).Perm s := by
    rw [List.perm_ext_iff_of_nodup (hl.filter _) hs]
    intro a
    simp only [List.mem_filter]
    exact ⟨fun h => (hf a).mp h.2, fun h => ⟨hsub a h, (hf a).mpr h⟩⟩
  exact hperm.length_eq

theorem length_filter_ne {α} [BEq α] [LawfulBEq α] (l : List α) (hl : l.Nodup)
    (a : α) (ha : a ∈ l) :
    (l.filter (fun c => c != a)).length + 1 = l.length := by
  have h := length_filter_update l hl a ha (fun c => c != a) (fun _ => true)
    (by simp) rfl (fun c hc hca => by simp [bne_iff_ne, hca])
  simpa using h

/-- Case analysis on the fallback branch of the candidate pool. -/
theorem Board.mineCandidates_eq (b : Board) (sx sy : Int) :
    (b.mineCandidates sx sy =
        b.allCoords.filter (fun c => !(((sx, sy) :: b.neighbors sx sy).contains c)) ∧
      ¬(((b.allCoords.filter
            (fun c => !(((sx, sy) :: b.neighbors sx sy).contains c))).length : Int) <
          b.mine_target)) ∨
    (b.mineCandidates sx sy = b.allCoords.filter (fun c => c != (sx, sy)) ∧
      ((b.allCoords.filter
          (fun c => !(((sx, sy) :: b.neighbors sx sy).contains c))).length : Int) <
        b.mine_target) := by
  by_cases hc : ((b.allCoords.filter
      (fun c => !(((sx, sy) :: b.neighbors sx sy).contains c))).length : Int) < b.mine_target
  · right
    refine ⟨?_, hc⟩
    simp only [Board.mineCandidates]
    rw [if_pos hc]
  · left
    refine ⟨?_, hc⟩
    simp only [Board.mineCandidates]
    rw [if_neg hc]

theorem Board.mineCandidates_subset (b : Board) (sx sy : Int) (p : Int × Int)
    (hp : p ∈ b.mineCandidates sx sy) : p ∈ b.allCoords := by
  rcases b.mineCandidates_eq sx sy with ⟨heq, -⟩ | ⟨heq, -⟩ <;>
    (rw [heq] at hp; exact (List.mem_filter.mp hp).1)

theorem Board.safe_not_mem_mineCandidates (b : Board) (sx sy : Int) :
    (sx, sy) ∉ b.mineCandidates sx sy := by
  intro hmem
  rcases b.mineCandidates_eq sx sy with ⟨heq, -⟩ | ⟨heq, -⟩ <;> rw [heq] at hmem
  · have h := (List.mem_filter.mp hmem).2
    simp [List.contains_cons] at h
  · have h := (List.mem_filter.mp hmem).2
    simp at h

/-! ## place_mines_excluding lemmas -/

theorem Board.place_mines_w (b : Board) (sx sy : Int) (s : List (Int × Int)) :
    (b.place_mines_excluding sx sy s).w = b.w := (b.setMines_fields s).1

theorem Board.place_mines_h (b : Board) (sx sy : Int) (s : List (Int × Int)) :
    (b.place_mines_excluding sx sy s).h = b.h := (b.setMines_fields s).2.1

theorem Board.place_mines_mine_target (b : Board) (sx sy : Int) (s : List (Int × Int)) :
    (b.place_mines_excluding sx sy s).mine_target = b.mine_target := (b.setMines_fields s).2.2.1

theorem Board.place_mines_mines_placed (b : Board) (sx sy : Int) (s : List (Int × Int)) :
    (b.place_mines_excluding sx sy s).mines_placed = true := rfl

theorem Board.place_mines_revealed_count (b : Board) (sx sy : Int) (s : List (Int × Int)) :
    (b.place_mines_excluding sx sy s).revealed_count = b.revealed_count :=
  (b.setMines_fields s).2.2.2.2

theorem Board.place_mines_WF (b : Board) (hwf : b.WF) (sx sy : Int) (s : List (Int × Int)) :
    (b.place_mines_excluding sx sy s).WF := by
  have hsm := b.setMines_WF hwf s
  have h1 : 0 < (b.setMines s).w := by rw [(b.setMines_fields s).1]; exact hwf.1
  have h2 : 0 < (b.setMines s).h := by rw [(b.setMines_fields s).2.1]; exact hwf.2.1
  have := (b.setMines s).computeAdj_WF h1 h2
  obtain ⟨hw, hh, hlen, hrows⟩ := this
  exact ⟨by rw [b.place_mines_w]; exact hwf.1, by rw [b.place_mines_h]; exact hwf.2.1,
    hlen, hrows⟩

/-- The cell a placement writes, for in-bounds coordinates: the `mine`
bit records membership in the sample, and a non-mine cell's `adj` is the
count of sampled neighbors. -/
theorem Board.getCell_place_mines (b : Board) (hwf : b.WF) (sx sy : Int)
    (s : List (Int × Int)) (hsub : ∀ p ∈ s, b.in_bounds p.1 p.2 = true)
    {x y : Int} (hib : b.in_bounds x y = true) :
    (b.place_mines_excluding sx sy s).getCell x y =
      (let c := (b.setMines s).getCell x y
       if c.mine then c
       else { c with
         adj := ((((b.setMines s).neighbors x y).filter
           (fun p => ((b.setMines s).getCell p.1 p.2).mine)).length : Int) }) := by
  have hsm := b.setMines_WF hwf s
  have hib' : (b.setMines s).in_bounds x y = true := by
    rw [Board.in_bounds_congr (b.setMines_fields s).1 (b.setMines_fields s).2.1]
    exact hib
  have hchar := (b.setMines s).getCell_computeAdj hib'
  have hsame : (b.place_mines_excluding sx sy s).getCell x y =
      (b.setMines s).computeAdj.getCell x y := rfl
  rw [hsame, hchar]

/-- The mine bit after placement records sample membership. -/
theorem Board.place_mines_mine (b : Board) (hwf : b.WF) (sx sy : Int)
    (s : List (Int × Int)) (hsub : ∀ p ∈ s, b.in_bounds p.1 p.2 = true)
    {x y : Int} (hib : b.in_bounds x y = true) :
    ((b.place_mines_excluding sx sy s).getCell x y).mine =
      ((x, y) ∈ s || (b.getCell x y).mine) := by
  rw [b.getCell_place_mines hwf sx sy s hsub hib]
  have hm := b.getCell_setMines hwf s hsub hib
  by_cases hmem : (x, y) ∈ s
  · simp [hm, hmem]
  · simp [hm, hmem]
    by_cases ho : (b.getCell x y).mine = true
    · simp [ho]
    · simp only [Bool.not_eq_true] at ho
      simp [ho]

/-- The count over the neighbor list agrees with the spec's brute-force
Moore-neighborhood recount. -/
theorem Board.mineNbrCount_eq_spec (b : Board) (x y : Int) :
    (((b.neighbors x y).filter (fun p => (b.getCell p.1 p.2).mine)).length) =
      b.mineNbrCountSpec x y := by
  apply List.Perm.length_eq
  rw [List.perm_ext_iff_of_nodup ((b.neighbors_nodup x y).filter _) (b.nodup_allCoords.filter _)]
  intro p
  simp only [List.mem_filter, Board.mem_neighbors, Board.mem_allCoords, mooreAdjacent,
    Bool.and_eq_true, decide_eq_true_eq, bne_iff_ne, ne_eq]
  constructor
  · rintro ⟨⟨hib, hne, h1, h2⟩, hm⟩
    exact ⟨hib, ⟨⟨fun hc => hne hc.symm, by omega⟩, by omega⟩, hm⟩
  · rintro ⟨hib, ⟨⟨hne, h1⟩, h2⟩, hm⟩
    exact ⟨⟨hib, fun hc => hne hc.symm, by omega, by omega⟩, hm⟩

theorem Board.place_mines_mine_eq_sm (b : Board) (hwf : b.WF) (sx sy : Int)
    (s : List (Int × Int)) (hsub : ∀ p ∈ s, b.in_bounds p.1 p.2 = true)
    {x y : Int} (hib : b.in_bounds x y = true) :
    ((b.place_mines_excluding sx sy s).getCell x y).mine =
      ((b.setMines s).getCell x y).mine := by
  rw [b.getCell_place_mines hwf sx sy s hsub hib]
  by_cases hm : ((b.setMines s).getCell x y).mine = true
  · simp [hm]
  · simp only [Bool.not_eq_true] at hm
    simp [hm]

/-- C3: after `placeMinesExcluding(safeX, safeY)` runs on a validly
constructed board, for every possible random choice, exactly `mineTarget`
cells are mines, `minesPlaced` is true, and every non-mine cell's
`adjacentMineCount` equals the brute-force recount of its in-bounds
mined Moore neighbors. -/
theorem place_mines_excluding_spec (b : Board) (sx sy : Int) (sample : List (Int × Int))
    (hwf : b.WF)
    (hclean : ∀ p ∈ b.allCoords, (b.getCell p.1 p.2).mine = false)
    (hs : ValidSample b sx sy sample) :
    (b.place_mines_excluding sx sy sample).mines_placed = true ∧
    ((b.place_mines_excluding sx sy sample).mineCount : Int) = b.mine_target ∧
    (∀ p ∈ (b.place_mines_excluding sx sy sample).allCoords,
      ((b.place_mines_excluding sx sy sample).getCell p.1 p.2).mine = false →
      ((b.place_mines_excluding sx sy sample).getCell p.1 p.2).adj =
        ((b.place_mines_excluding sx sy sample).mineNbrCountSpec p.1 p.2 : Int)) := by
  obtain ⟨hnd, hlen, hsubc⟩ := hs
  have hsubA : ∀ p ∈ sample, p ∈ b.allCoords := fun p hp =>
    b.mineCandidates_subset sx sy p (hsubc p hp)
  have hsub : ∀ p ∈ sample, b.in_bounds p.1 p.2 = true := fun p hp =>
    (b.mem_allCoords p).mp (hsubA p hp)
  have hco : (b.place_mines_excluding sx sy sample).allCoords = b.allCoords :=
    Board.allCoords_congr (b.place_mines_w sx sy sample) (b.place_mines_h sx sy sample)
  have hmine : ∀ p : Int × Int, b.in_bounds p.1 p.2 = true →
      ((b.place_mines_excluding sx sy sample).getCell p.1 p.2).mine =
        decide (p ∈ sample) := by
    intro p hpib
    rw [b.place_mines_mine hwf sx sy sample hsub hpib,
      hclean p ((b.mem_allCoords p).mpr hpib)]
    simp
  refine ⟨rfl, ?_, ?_⟩
  · have hfc : b.allCoords.filter
        (fun p => ((b.place_mines_excluding sx sy sample).getCell p.1 p.2).mine) =
        b.allCoords.filter (fun p => decide (p ∈ sample)) := by
      apply List.filter_congr
      intro p hp
      rw [hmine p ((b.mem_allCoords p).mp hp)]
    have hcnt : (b.place_mines_excluding sx sy sample).mineCount = sample.length := by
      unfold Board.mineCount
      rw [hco, hfc]
      exact length_filter_mem b.allCoords sample b.nodup_allCoords hnd hsubA _
        (fun a => by simp)
    rw [hcnt]
    exact hlen
  · intro p hp hpm
    rw [hco] at hp
    have hpib : b.in_bounds p.1 p.2 = true := (b.mem_allCoords p).mp hp
    have hchar := b.getCell_place_mines hwf sx sy sample hsub hpib
    have hsmmine : ((b.setMines sample).getCell p.1 p.2).mine = false := by
      rw [← b.place_mines_mine_eq_sm hwf sx sy sample hsub hpib]
      exact hpm
    have hadj : (b.place_mines_excluding sx sy sample).getCell p.1 p.2 =
        { (b.setMines sample).getCell p.1 p.2 with
          adj := ((((b.setMines sample).neighbors p.1 p.2).filter
            (fun q => ((b.setMines sample).getCell q.1 q.2).mine)).length : Int) } := by
      rw [hchar]
      simp [hsmmine]
    rw [hadj]
    have hwsm : (b.place_mines_excluding sx sy sample).w = (b.setMines sample).w := by
      rw [b.place_mines_w sx sy sample, (b.setMines_fields sample).1]
    have hhsm : (b.place_mines_excluding sx sy sample).h = (b.setMines sample).h := by
      rw [b.place_mines_h sx sy sample, (b.setMines_fields sample).2.1]
    have hnb : (b.setMines sample).neighbors p.1 p.2 =
        (b.place_mines_excluding sx sy sample).neighbors p.1 p.2 :=
      (Board.neighbors_congr hwsm hhsm p.1 p.2).symm
    have hfilter : ((b.setMines sample).neighbors p.1 p.2).filter
        (fun q => ((b.setMines sample).getCell q.1 q.2).mine) =
        ((b.place_mines_excluding sx sy sample).neighbors p.1 p.2).filter
          (fun q => ((b.place_mines_excluding sx sy sample).getCell q.1 q.2).mine) := by
      rw [← hnb]
      apply List.filter_congr
      intro q hq
      have hqib : (b.setMines sample).in_bounds q.1 q.2 = true :=
        (b.setMines sample).mem_neighbors_in_bounds hq
      have hqibb : b.in_bounds q.1 q.2 = true := by
        rw [← Board.in_bounds_congr (b.setMines_fields sample).1 (b.setMines_fields sample).2.1]
        exact hqib
      rw [b.place_mines_mine_eq_sm hwf sx sy sample hsub hqibb]
    rw [hfilter, (b.place_mines_excluding sx sy sample).mineNbrCount_eq_spec p.1 p.2]

/-- C4: for every board and first-revealed in-bounds cell, and every
possible random mine choice: the clicked cell is never a mine; when the
safe zone fits (`width*height - 9 ≥ mineTarget`) none of its in-bounds
Moore neighbors is a mine; and the candidate pool always holds at least
`mineTarget` cells, so placement always succeeds. -/
theorem first_click_fairness (b : Board) (sx sy : Int) (sample : List (Int × Int))
    (hwf : b.WF)
    (hclean : ∀ p ∈ b.allCoords, (b.getCell p.1 p.2).mine = false)
    (hib : b.in_bounds sx sy = true)
    (htub : b.mine_target ≤ b.w * b.h - 1)
    (hs : ValidSample b sx sy sample) :
    ((b.place_mines_excluding sx sy sample).getCell sx sy).mine = false ∧
    (b.w * b.h - 9 ≥ b.mine_target →
      ∀ p ∈ b.neighbors sx sy,
        ((b.place_mines_excluding sx sy sample).getCell p.1 p.2).mine = false) ∧
    b.mine_target ≤ ((b.mineCandidates sx sy).length : Int) := by
  obtain ⟨hnd, hlen, hsubc⟩ := hs
  have hsubA : ∀ p ∈ sample, p ∈ b.allCoords := fun p hp =>
    b.mineCandidates_subset sx sy p (hsubc p hp)
  have hsub : ∀ p ∈ sample, b.in_bounds p.1 p.2 = true := fun p hp =>
    (b.mem_allCoords p).mp (hsubA p hp)
  have hacl : (b.allCoords.length : Int) = b.w * b.h := by
    rw [b.length_allCoords]
    have hc : ((b.w.toNat * b.h.toNat : Nat) : Int) = (b.w.toNat : Int) * (b.h.toNat : Int) := by
      push_cast
      ring
    rw [hc, Int.toNat_of_nonneg (le_of_lt hwf.1), Int.toNat_of_nonneg (le_of_lt hwf.2.1)]
  have hfl := length_filter_not_contains b.allCoords ((sx, sy) :: b.neighbors sx sy)
    b.nodup_allCoords
  have hexl : ((sx, sy) :: b.neighbors sx sy).length ≤ 9 := by
    rw [List.length_cons]
    have := b.neighbors_length_le sx sy
    omega
  have hnotm : (sx, sy) ∉ sample := fun hmem =>
    b.safe_not_mem_mineCandidates sx sy (hsubc _ hmem)
  refine ⟨?_, ?_, ?_⟩
  · have hcl : (b.getCell sx sy).mine = false :=
      hclean (sx, sy) ((b.mem_allCoords (sx, sy)).mpr hib)
    rw [b.place_mines_mine hwf sx sy sample hsub hib, hcl]
    simp [hnotm]
  · intro hfits p hpnb
    have hpib : b.in_bounds p.1 p.2 = true := b.mem_neighbors_in_bounds hpnb
    rcases b.mineCandidates_eq sx sy with ⟨heq, hge⟩ | ⟨heq, hlt⟩
    · have hpnotc : p ∉ b.mineCandidates sx sy := by
        rw [heq]
        intro hmem
        have h := (List.mem_filter.mp hmem).2
        have hcont : (((sx, sy) :: b.neighbors sx sy).contains p) = true :=
          List.elem_iff.mpr (List.mem_cons_of_mem _ hpnb)
        rw [hcont] at h
        simp at h
      have hpnots : p ∉ sample := fun hmem => hpnotc (hsubc _ hmem)
      have hclp : (b.getCell p.1 p.2).mine = false := hclean p ((b.mem_allCoords p).mpr hpib)
      rw [b.place_mines_mine hwf sx sy sample hsub hpib, hclp]
      simp only [Bool.or_false, decide_eq_false_iff_not]
      exact fun hmem => hpnots hmem
    · exfalso
      omega
  · rcases b.mineCandidates_eq sx sy with ⟨heq, hge⟩ | ⟨heq, hlt⟩
    · rw [heq]
      omega
    · rw [heq]
      have hne := length_filter_ne b.allCoords b.nodup_allCoords (sx, sy)
        ((b.mem_allCoords _).mpr hib)
      omega

/-! ## Construction (C7) -/

/-- C7 counterexample: at `width = 0, height = 1, mineTarget = 0` the
mine count is outside `(0, width*height - 1]`, yet construction fails
with `InvalidDimensions`, not `InvalidMineCount`: the dimension check
takes precedence, so "fails with InvalidMineCount exactly when
mineTarget is not in (0, width*height - 1]" is false as stated. -/
theorem board_new_mine_count_iff_cex :
    Board.new 0 1 0 = .error .invalidDimensions ∧
    Board.new 0 1 0 ≠ .error .invalidMineCount ∧
    ¬(0 < (0 : Int) ∧ (0 : Int) ≤ 0 * 1 - 1) :=
  ⟨by decide, by decide, by decide⟩

theorem getD_replicate' {α} (n : Nat) (a d : α) (i : Nat) (h : i < n) :
    (List.replicate n a).getD i d = a := by
  rw [List.getD_eq_getElem?_getD, List.getElem?_replicate, if_pos h]
  rfl

/-- C7 (amended): construction fails with `InvalidDimensions` exactly
when a dimension is non-positive; it fails with `InvalidMineCount`
exactly when both dimensions are positive (the dimension check takes
precedence) and `mineTarget` is outside `(0, width*height - 1]`; and
otherwise it succeeds with an all-default grid, `minesPlaced = false`
and `revealedCount = 0`. -/
theorem board_new_spec (width height mines : Int) :
    (Board.new width height mines = .error .invalidDimensions ↔ width ≤ 0 ∨ height ≤ 0) ∧
    (Board.new width height mines = .error .invalidMineCount ↔
      0 < width ∧ 0 < height ∧ ¬(0 < mines ∧ mines ≤ width * height - 1)) ∧
    (¬(width ≤ 0 ∨ height ≤ 0) → (0 < mines ∧ mines ≤ width * height - 1) →
      Board.new width height mines = .ok
        { w := width, h := height, mine_target := mines,
          grid := List.replicate height.toNat (List.replicate width.toNat {}),
          mines_placed := false, revealed_count := 0 }) ∧
    (∀ b : Board, Board.new width height mines = .ok b →
      b.w = width ∧ b.h = height ∧ b.mine_target = mines ∧ b.mines_placed = false ∧
      b.revealed_count = 0 ∧ b.WF ∧
      ∀ p ∈ b.allCoords, b.getCell p.1 p.2 = {}) := by
  unfold Board.new
  by_cases h1 : width ≤ 0 ∨ height ≤ 0
  · rw [if_pos h1]
    refine ⟨⟨fun _ => h1, fun _ => rfl⟩, ⟨fun hc => ?_, fun hc => ?_⟩, fun hc => absurd h1 hc,
      fun b hb => ?_⟩
    · simp at hc
    · exact absurd h1 (by omega)
    · simp at hb
  · rw [if_neg h1]
    by_cases h2 : 0 < mines ∧ mines ≤ width * height - 1
    · rw [if_neg (by simpa using h2)]
      refine ⟨⟨fun hc => by simp at hc, fun hc => absurd hc h1⟩,
        ⟨fun hc => by simp at hc, fun hc => absurd h2 hc.2.2⟩,
        fun _ _ => rfl, fun b hb => ?_⟩
      injection hb with hb
      subst hb
      refine ⟨rfl, rfl, rfl, rfl, rfl,
        ⟨by show (0 : Int) < width; omega, by show (0 : Int) < height; omega, by simp, ?_⟩, ?_⟩
      · intro row hrow
        rw [List.eq_of_mem_replicate hrow]
        simp
      · intro p hp
        have hpib := (Board.mem_allCoords _ p).mp hp
        simp only [Board.in_bounds, Bool.and_eq_true, decide_eq_true_eq] at hpib
        rw [Board.getCell]
        simp only
        rw [getD_replicate' _ _ _ _ (by omega), getD_replicate' _ _ _ _ (by omega)]
    · rw [if_pos (by simpa using h2)]
      refine ⟨⟨fun hc => by simp at hc, fun hc => absurd hc h1⟩,
        ⟨fun _ => ⟨by omega, by omega, h2⟩, fun _ => rfl⟩,
        fun _ hc => absurd hc h2, fun b hb => by simp at hb⟩

/-- C7 witness: the amended characterization applied at `(9, 9, 10)`. -/
theorem board_new_spec_witness :
    Board.new 9 9 10 = .ok
      { w := 9, h := 9, mine_target := 10,
        grid := List.replicate 9 (List.replicate 9 {}),
        mines_placed := false, revealed_count := 0 } :=
  (board_new_spec 9 9 10).2.2.1 (by decide) (by decide)

/-! ## Difficulty presets (C10) -/

/-- C10: every preset the difficulty lookup can return satisfies the
Board constructor's preconditions, so constructing a Board from it never
reaches the constructor's error branches. -/
theorem presets_satisfy_board_preconditions (name : String) (d : Difficulty)
    (h : get_difficulty name = some d) :
    0 < d.width ∧ 0 < d.height ∧ 0 < d.mines ∧ d.mines ≤ d.width * d.height - 1 ∧
    ∃ b : Board, Board.new d.width d.height d.mines = .ok b := by
  unfold get_difficulty _LEVELS at h
  simp only [List.lookup] at h
  split at h
  · simp only [Option.some.injEq] at h
    subst h
    exact ⟨by decide, by decide, by decide, by decide, _, rfl⟩
  · split at h
    · simp only [Option.some.injEq] at h
      subst h
      exact ⟨by decide, by decide, by decide, by decide, _, rfl⟩
    · split at h
      · simp only [Option.some.injEq] at h
        subst h
        exact ⟨by decide, by decide, by decide, by decide, _, rfl⟩
      · split at h
        · simp only [Option.some.injEq] at h
          subst h
          exact ⟨by decide, by decide, by decide, by decide, _, rfl⟩
        · exact absurd h (by simp)

/-- C10 witness: the lookup of "easy" resolves and its preset passes
construction. -/
theorem presets_satisfy_board_preconditions_witness :
    get_difficulty "easy" = some ⟨"easy", 9, 9, 10⟩ ∧
    (0 < (⟨"easy", 9, 9, 10⟩ : Difficulty).width ∧
      0 < (⟨"easy", 9, 9, 10⟩ : Difficulty).height ∧
      0 < (⟨"easy", 9, 9, 10⟩ : Difficulty).mines ∧
      (⟨"easy", 9, 9, 10⟩ : Difficulty).mines ≤
        (⟨"easy", 9, 9, 10⟩ : Difficulty).width *
          (⟨"easy", 9, 9, 10⟩ : Difficulty).height - 1 ∧
      ∃ b : Board, Board.new (⟨"easy", 9, 9, 10⟩ : Difficulty).width
        (⟨"easy", 9, 9, 10⟩ : Difficulty).height
        (⟨"easy", 9, 9, 10⟩ : Difficulty).mines = .ok b) :=
  ⟨by decide, presets_satisfy_board_preconditions "easy" ⟨"easy", 9, 9, 10⟩ (by decide)⟩

/-! ## Rejected moves (C5), idempotent reveal (C6), win predicate (C1) -/

/-- C5: rejected moves: an out-of-bounds `(x, y)` makes both `reveal`
and `toggleFlag` return their rejection values; revealing a flagged cell
returns `(false, false)`; flagging a revealed cell returns `false`; and
in every rejected case the returned board is the very same `Board`
value, so nothing changed — in particular a rejected first reveal does
not trigger mine placement.  Proved for all board values, hence for all
reachable ones. -/
theorem rejected_moves (b : Board) (s : List (Int × Int)) (x y : Int) :
    (b.in_bounds x y = false →
      b.reveal s x y = (b, false, false) ∧ b.toggle_flag x y = (b, false)) ∧
    (b.in_bounds x y = true → (b.getCell x y).flagged = true →
      b.reveal s x y = (b, false, false)) ∧
    (b.in_bounds x y = true → (b.getCell x y).revealed = true →
      b.toggle_flag x y = (b, false)) := by
  refine ⟨fun hib => ⟨?_, ?_⟩, fun hib hf => ?_, fun hib hr => ?_⟩
  · unfold Board.reveal
    simp [hib]
  · unfold Board.toggle_flag
    simp [hib]
  · unfold Board.reveal
    simp [hib, hf]
  · unfold Board.toggle_flag
    simp [hib, hr]

/-- C5 witness: each rejection branch at a concrete reachable board. -/
theorem rejected_moves_witness :
    (demoBoard.in_bounds 5 5 = false ∧ demoBoard.reveal [] 5 5 = (demoBoard, false, false) ∧
      demoBoard.toggle_flag 5 5 = (demoBoard, false)) ∧
    (demoFlagged.in_bounds 0 0 = true ∧ (demoFlagged.getCell 0 0).flagged = true ∧
      demoFlagged.reveal [] 0 0 = (demoFlagged, false, false)) ∧
    (demoPlaced.in_bounds 0 0 = true ∧ (demoPlaced.getCell 0 0).revealed = true ∧
      demoPlaced.toggle_flag 0 0 = (demoPlaced, false)) := by
  refine ⟨⟨by decide, ?_, ?_⟩, ⟨by decide, by decide, ?_⟩, ⟨by decide, by decide, ?_⟩⟩
  · exact ((rejected_moves demoBoard [] 5 5).1 (by decide)).1
  · exact ((rejected_moves demoBoard [] 5 5).1 (by decide)).2
  · exact (rejected_moves demoFlagged [] 0 0).2.1 (by decide) (by decide)
  · exact (rejected_moves demoPlaced [] 0 0).2.2 (by decide) (by decide)

/-- C6: revealing an already revealed, unflagged, in-bounds cell
returns `(true, false)` and returns the very same `Board` value: no
field changes, no flood fill, no re-placement.  Proved for all board
values, hence for all reachable ones. -/
theorem reveal_idempotent (b : Board) (s : List (Int × Int)) (x y : Int)
    (hib : b.in_bounds x y = true) (hnf : (b.getCell x y).flagged = false)
    (hr : (b.getCell x y).revealed = true) :
    b.reveal s x y = (b, true, false) := by
  unfold Board.reveal
  simp [hib, hnf, hr]

/-- C6 witness: re-revealing the already revealed `(0, 0)`. -/
theorem reveal_idempotent_witness :
    demoPlaced.reveal [] 0 0 = (demoPlaced, true, false) :=
  reveal_idempotent demoPlaced [] 0 0 (by decide) (by decide) (by decide)

/-- C1 counterexample: in a reachable 2×2 game (one mine at `(1, 1)`,
cells `(0, 0)` and `(0, 1)` revealed), revealing the mine returns
`(ok = true, hitMine = true)` yet increments `revealedCount` from 2 to 3
and thereby makes `allSafeRevealed()` true: a mine reveal does enter
`revealedCount`, contradicting the claim. -/
theorem all_safe_revealed_mine_cex :
    Reachable demoTwo ∧
    demoTwo.mines_placed = true ∧
    demoTwo.in_bounds 1 1 = true ∧
    (demoTwo.getCell 1 1).mine = true ∧
    (demoTwo.getCell 1 1).flagged = false ∧
    (demoTwo.getCell 1 1).revealed = false ∧
    demoTwo.revealed_count = 2 ∧
    demoTwo.all_safe_revealed = false ∧
    (demoTwo.reveal [] 1 1).2 = (true, true) ∧
    (demoTwo.reveal [] 1 1).1.revealed_count = 3 ∧
    (demoTwo.reveal [] 1 1).1.all_safe_revealed = true := by
  refine ⟨?_, by decide, by decide, by decide, by decide, by decide, by decide, by decide,
    by decide, by decide, by decide⟩
  have h0 : Reachable demoBoard := Reachable.init 2 2 1 demoBoard (by decide)
  have h1 : Reachable demoPlaced := Reachable.reveal demoBoard [(1, 1)] 0 0 h0 (by decide)
  exact Reachable.reveal demoPlaced [] 0 1 h1 (by decide)

/-- C1 (amended): `allSafeRevealed()` is true iff
`revealedCount = width*height - mineTarget`; but a reveal that hits a
mine increments `revealedCount` by exactly 1 (the mine cell is marked
revealed), and it makes `allSafeRevealed()` true exactly when the
incremented count reaches `width*height - mineTarget` — so callers must
check `hitMine` before consulting `allSafeRevealed()`. -/
theorem all_safe_revealed_spec (b : Board) (s : List (Int × Int)) (x y : Int)
    (hmp : b.mines_placed = true) (hib : b.in_bounds x y = true)
    (hnf : (b.getCell x y).flagged = false) (hnr : (b.getCell x y).revealed = false)
    (hm : (b.getCell x y).mine = true) :
    (b.all_safe_revealed = true ↔ b.revealed_count = b.w * b.h - b.mine_target) ∧
    (b.reveal s x y).2 = (true, true) ∧
    (b.reveal s x y).1.revealed_count = b.revealed_count + 1 ∧
    ((b.reveal s x y).1.all_safe_revealed = true ↔
      b.revealed_count + 1 = b.w * b.h - b.mine_target) := by
  have hpath : b.reveal s x y = (b.markRevealed x y, true, true) := by
    unfold Board.reveal
    simp [hib, hnf, hnr, hmp, hm]
  refine ⟨by simp [Board.all_safe_revealed], by rw [hpath], ?_, ?_⟩
  · rw [hpath]
    exact b.markRevealed_count x y
  · rw [hpath]
    show ((b.markRevealed x y).all_safe_revealed = true ↔ _)
    unfold Board.all_safe_revealed
    rw [b.markRevealed_count x y, b.markRevealed_w, b.markRevealed_h,
      b.markRevealed_mine_target]
    simp

/-- C1 amended witness: the characterization applied at the concrete
mine reveal of the counterexample board. -/
theorem all_safe_revealed_spec_witness :
    (demoTwo.all_safe_revealed = true ↔
      demoTwo.revealed_count = demoTwo.w * demoTwo.h - demoTwo.mine_target) ∧
    (demoTwo.reveal [] 1 1).2 = (true, true) ∧
    (demoTwo.reveal [] 1 1).1.revealed_count = demoTwo.revealed_count + 1 ∧
    ((demoTwo.reveal [] 1 1).1.all_safe_revealed = true ↔
      demoTwo.revealed_count + 1 = demoTwo.w * demoTwo.h - demoTwo.mine_target) :=
  all_safe_revealed_spec demoTwo [] 1 1 (by decide) (by decide) (by decide) (by decide)
    (by decide)

/-- C3 witness: the placement invariant at a concrete 2×2 board and
sample. -/
theorem place_mines_excluding_spec_witness :
    demoBoard.WF ∧
    (∀ p ∈ demoBoard.allCoords, (demoBoard.getCell p.1 p.2).mine = false) ∧
    ValidSample demoBoard 0 0 [(1, 1)] ∧
    ((demoBoard.place_mines_excluding 0 0 [(1, 1)]).mines_placed = true ∧
      ((demoBoard.place_mines_excluding 0 0 [(1, 1)]).mineCount : Int) =
        demoBoard.mine_target ∧
      (∀ p ∈ (demoBoard.place_mines_excluding 0 0 [(1, 1)]).allCoords,
        ((demoBoard.place_mines_excluding 0 0 [(1, 1)]).getCell p.1 p.2).mine = false →
        ((demoBoard.place_mines_excluding 0 0 [(1, 1)]).getCell p.1 p.2).adj =
          ((demoBoard.place_mines_excluding 0 0 [(1, 1)]).mineNbrCountSpec p.1 p.2 : Int))) :=
  ⟨by decide, by decide, by decide,
    place_mines_excluding_spec demoBoard 0 0 [(1, 1)] (by decide) (by decide) (by decide)⟩

/-- C4 witness: fairness and pool size at a concrete 2×2 board — small
enough that only the fallback guarantee applies. -/
theorem first_click_fairness_witness :
    demoBoard.WF ∧
    (∀ p ∈ demoBoard.allCoords, (demoBoard.getCell p.1 p.2).mine = false) ∧
    demoBoard.in_bounds 0 0 = true ∧
    demoBoard.mine_target ≤ demoBoard.w * demoBoard.h - 1 ∧
    ValidSample demoBoard 0 0 [(1, 1)] ∧
    (((demoBoard.place_mines_excluding 0 0 [(1, 1)]).getCell 0 0).mine = false ∧
      (demoBoard.w * demoBoard.h - 9 ≥ demoBoard.mine_target →
        ∀ p ∈ demoBoard.neighbors 0 0,
          ((demoBoard.place_mines_excluding 0 0 [(1, 1)]).getCell p.1 p.2).mine = false) ∧
      demoBoard.mine_target ≤ ((demoBoard.mineCandidates 0 0).length : Int)) :=
  ⟨by decide, by decide, by decide, by decide, by decide,
    first_click_fairness demoBoard 0 0 [(1, 1)] (by decide) (by decide) (by decide)
      (by decide) (by decide)⟩

/-! ## Flood-fill lemmas -/

theorem Board.floodProcess_cons (b : Board) (stack : List (Int × Int)) (nx ny : Int)
    (rest : List (Int × Int)) :
    b.floodProcess stack ((nx, ny) :: rest) =
      (if (b.getCell nx ny).revealed || (b.getCell nx ny).flagged then
        b.floodProcess stack rest
       else if (b.getCell nx ny).mine then b.floodProcess stack rest
       else (b.markRevealed nx ny).floodProcess
         (if (b.getCell nx ny).adj == 0 then (nx, ny) :: stack else stack) rest) := rfl

theorem Board.floodLoop_cons (fuel : Nat) (b : Board) (cx cy : Int)
    (rest : List (Int × Int)) :
    Board.floodLoop (fuel + 1) b ((cx, cy) :: rest) =
      Board.floodLoop fuel (b.floodProcess rest (b.neighbors cx cy)).1
        (b.floodProcess rest (b.neighbors cx cy)).2 := rfl

theorem Board.getCell_markRevealed_cases (b : Board) (hwf : b.WF) {x y : Int}
    (hib : b.in_bounds x y = true) (u v : Int) :
    (b.markRevealed x y).getCell u v = b.getCell u v ∨
      (b.markRevealed x y).getCell u v = { b.getCell u v with revealed := true } := by
  by_cases hne : x.toNat ≠ u.toNat ∨ y.toNat ≠ v.toNat
  · exact Or.inl (b.getCell_markRevealed_ne hne)
  · right
    push_neg at hne
    have hcell : b.getCell u v = b.getCell x y := by
      unfold Board.getCell
      rw [← hne.1, ← hne.2]
    have hcell' : (b.markRevealed x y).getCell u v = (b.markRevealed x y).getCell x y := by
      unfold Board.getCell
      rw [← hne.1, ← hne.2]
    rw [hcell', hcell, b.getCell_markRevealed_self hwf hib]

/-- Marking a cell revealed changes no `flagged`, `mine` or `adj` field
anywhere. -/
theorem Board.markRevealed_keeps (b : Board) (hwf : b.WF) {x y : Int}
    (hib : b.in_bounds x y = true) (u v : Int) :
    ((b.markRevealed x y).getCell u v).flagged = (b.getCell u v).flagged ∧
    ((b.markRevealed x y).getCell u v).mine = (b.getCell u v).mine ∧
    ((b.markRevealed x y).getCell u v).adj = (b.getCell u v).adj := by
  rcases b.getCell_markRevealed_cases hwf hib u v with h | h <;> rw [h] <;> exact ⟨rfl, rfl, rfl⟩

theorem Board.markRevealed_mono (b : Board) (hwf : b.WF) {x y : Int}
    (hib : b.in_bounds x y = true) (u v : Int)
    (h : (b.getCell u v).revealed = true) :
    ((b.markRevealed x y).getCell u v).revealed = true := by
  rcases b.getCell_markRevealed_cases hwf hib u v with hc | hc
  · rw [hc]
    exact h
  · rw [hc]

theorem Board.floodProcess_fields (b : Board) (hwf : b.WF) (stack ns : List (Int × Int))
    (hns : ∀ p ∈ ns, b.in_bounds p.1 p.2 = true) :
    (b.floodProcess stack ns).1.WF ∧
    (b.floodProcess stack ns).1.w = b.w ∧
    (b.floodProcess stack ns).1.h = b.h ∧
    (b.floodProcess stack ns).1.mine_target = b.mine_target ∧
    (b.floodProcess stack ns).1.mines_placed = b.mines_placed ∧
    (b.floodProcess stack ns).1.revealed_count + ((b.floodProcess stack ns).1.unrevealed : Int) =
      b.revealed_count + (b.unrevealed : Int) ∧
    (b.floodProcess stack ns).1.unrevealed + (b.floodProcess stack ns).2.length ≤
      b.unrevealed + stack.length := by
  induction ns generalizing b stack with
  | nil => exact ⟨hwf, rfl, rfl, rfl, rfl, rfl, le_refl _⟩
  | cons hd rest ih =>
    obtain ⟨nx, ny⟩ := hd
    have hhd : b.in_bounds nx ny = true := hns (nx, ny) (List.mem_cons_self _ _)
    have hrest : ∀ p ∈ rest, b.in_bounds p.1 p.2 = true :=
      fun p hp => hns p (List.mem_cons_of_mem _ hp)
    rw [Board.floodProcess_cons]
    by_cases h1 : ((b.getCell nx ny).revealed || (b.getCell nx ny).flagged) = true
    · rw [if_pos h1]
      exact ih b hwf stack hrest
    · rw [if_neg h1]
      by_cases h2 : (b.getCell nx ny).mine = true
      · rw [if_pos h2]
        exact ih b hwf stack hrest
      · rw [if_neg h2]
        have hnru : (b.getCell nx ny).revealed = false := by
          simp only [Bool.or_eq_true, not_or, Bool.not_eq_true] at h1
          exact h1.1
        have hwf' := b.markRevealed_WF hwf nx ny
        have hrest' : ∀ p ∈ rest, (b.markRevealed nx ny).in_bounds p.1 p.2 = true := by
          intro p hp
          rw [Board.in_bounds_congr (b.markRevealed_w nx ny) (b.markRevealed_h nx ny)]
          exact hrest p hp
        have hacc := b.unrevealed_markRevealed hwf hhd hnru
        have hthis := ih (b.markRevealed nx ny) hwf'
          (if ((b.getCell nx ny).adj == 0) = true then (nx, ny) :: stack else stack) hrest'
        refine ⟨hthis.1, hthis.2.1.trans (b.markRevealed_w nx ny),
          hthis.2.2.1.trans (b.markRevealed_h nx ny),
          hthis.2.2.2.1.trans (b.markRevealed_mine_target nx ny),
          hthis.2.2.2.2.1.trans (b.markRevealed_mines_placed nx ny), ?_, ?_⟩
        · have h6 := hthis.2.2.2.2.2.1
          rw [b.markRevealed_count nx ny] at h6
          omega
        · have h7 := hthis.2.2.2.2.2.2
          have hsl : (if ((b.getCell nx ny).adj == 0) = true then (nx, ny) :: stack
              else stack).length ≤ stack.length + 1 := by
            split
            · simp
            · omega
          omega

theorem Board.floodProcess_frame (b : Board) (hwf : b.WF) (stack ns : List (Int × Int))
    (hns : ∀ p ∈ ns, b.in_bounds p.1 p.2 = true) (u v : Int) :
    ((b.floodProcess stack ns).1.getCell u v).flagged = (b.getCell u v).flagged ∧
    ((b.floodProcess stack ns).1.getCell u v).mine = (b.getCell u v).mine ∧
    ((b.floodProcess stack ns).1.getCell u v).adj = (b.getCell u v).adj ∧
    ((b.getCell u v).revealed = true →
      ((b.floodProcess stack ns).1.getCell u v).revealed = true) := by
  induction ns generalizing b stack with
  | nil => exact ⟨rfl, rfl, rfl, fun h => h⟩
  | cons hd rest ih =>
    obtain ⟨nx, ny⟩ := hd
    have hhd : b.in_bounds nx ny = true := hns (nx, ny) (List.mem_cons_self _ _)
    have hrest : ∀ p ∈ rest, b.in_bounds p.1 p.2 = true :=
      fun p hp => hns p (List.mem_cons_of_mem _ hp)
    rw [Board.floodProcess_cons]
    by_cases h1 : ((b.getCell nx ny).revealed || (b.getCell nx ny).flagged) = true
    · rw [if_pos h1]
      exact ih b hwf stack hrest
    · rw [if_neg h1]
      by_cases h2 : (b.getCell nx ny).mine = true
      · rw [if_pos h2]
        exact ih b hwf stack hrest
      · rw [if_neg h2]
        have hwf' := b.markRevealed_WF hwf nx ny
        have hrest' : ∀ p ∈ rest, (b.markRevealed nx ny).in_bounds p.1 p.2 = true := by
          intro p hp
          rw [Board.in_bounds_congr (b.markRevealed_w nx ny) (b.markRevealed_h nx ny)]
          exact hrest p hp
        have hthis := ih (b.markRevealed nx ny) hwf'
          (if ((b.getCell nx ny).adj == 0) = true then (nx, ny) :: stack else stack) hrest'
        have hkeep := b.markRevealed_keeps hwf hhd u v
        refine ⟨hthis.1.trans hkeep.1, hthis.2.1.trans hkeep.2.1,
          hthis.2.2.1.trans hkeep.2.2, fun h => hthis.2.2.2 ?_⟩
        exact b.markRevealed_mono hwf hhd u v h

theorem Board.floodProcess_covers (b : Board) (hwf : b.WF) (stack ns : List (Int × Int))
    (hns : ∀ p ∈ ns, b.in_bounds p.1 p.2 = true) :
    ∀ p ∈ ns, (b.getCell p.1 p.2).flagged = false → (b.getCell p.1 p.2).mine = false →
      ((b.floodProcess stack ns).1.getCell p.1 p.2).revealed = true := by
  induction ns generalizing b stack with
  | nil => intro p hp
           cases hp
  | cons hd rest ih =>
    obtain ⟨nx, ny⟩ := hd
    have hhd : b.in_bounds nx ny = true := hns (nx, ny) (List.mem_cons_self _ _)
    have hrest : ∀ p ∈ rest, b.in_bounds p.1 p.2 = true :=
      fun p hp => hns p (List.mem_cons_of_mem _ hp)
    intro p hp hflag hmine
    rw [Board.floodProcess_cons]
    by_cases h1 : ((b.getCell nx ny).revealed || (b.getCell nx ny).flagged) = true
    · rw [if_pos h1]
      rcases List.mem_cons.mp hp with rfl | hmem
      · have hrev : (b.getCell nx ny).revealed = true := by
          rcases Bool.or_eq_true_iff.mp h1 with h | h
          · exact h
          · rw [show (b.getCell nx ny).flagged = false from hflag] at h
            cases h
        exact (b.floodProcess_frame hwf stack rest hrest nx ny).2.2.2 hrev
      · exact ih b hwf stack hrest p hmem hflag hmine
    · rw [if_neg h1]
      by_cases h2 : (b.getCell nx ny).mine = true
      · rw [if_pos h2]
        rcases List.mem_cons.mp hp with rfl | hmem
        · rw [show (b.getCell nx ny).mine = false from hmine] at h2
          cases h2
        · exact ih b hwf stack hrest p hmem hflag hmine
      · rw [if_neg h2]
        have hwf' := b.markRevealed_WF hwf nx ny
        have hrest' : ∀ p ∈ rest, (b.markRevealed nx ny).in_bounds p.1 p.2 = true := by
          intro q hq
          rw [Board.in_bounds_congr (b.markRevealed_w nx ny) (b.markRevealed_h nx ny)]
          exact hrest q hq
        rcases List.mem_cons.mp hp with rfl | hmem
        · have hrev : ((b.markRevealed nx ny).getCell nx ny).revealed = true := by
            rw [b.getCell_markRevealed_self hwf hhd]
          exact ((b.markRevealed nx ny).floodProcess_frame hwf'
            (if ((b.getCell nx ny).adj == 0) = true then (nx, ny) :: stack else stack)
            rest hrest' nx ny).2.2.2 hrev
        · have hkeep := b.markRevealed_keeps hwf hhd p.1 p.2
          exact ih (b.markRevealed nx ny) hwf'
            (if ((b.getCell nx ny).adj == 0) = true then (nx, ny) :: stack else stack) hrest'
            p hmem (hkeep.1.trans hflag) (hkeep.2.1.trans hmine)

theorem Board.floodProcess_sound (b : Board) (hwf : b.WF) (stack ns : List (Int × Int))
    (hns : ∀ p ∈ ns, b.in_bounds p.1 p.2 = true) :
    ∀ p : Int × Int, b.in_bounds p.1 p.2 = true →
      ((b.floodProcess stack ns).1.getCell p.1 p.2).revealed = true →
      (b.getCell p.1 p.2).revealed = true ∨
        (p ∈ ns ∧ (b.getCell p.1 p.2).flagged = false ∧ (b.getCell p.1 p.2).mine = false) := by
  induction ns generalizing b stack with
  | nil => intro p hpib hrev
           exact Or.inl hrev
  | cons hd rest ih =>
    obtain ⟨nx, ny⟩ := hd
    have hhd : b.in_bounds nx ny = true := hns (nx, ny) (List.mem_cons_self _ _)
    have hrest : ∀ p ∈ rest, b.in_bounds p.1 p.2 = true :=
      fun p hp => hns p (List.mem_cons_of_mem _ hp)
    intro p hpib hrev
    rw [Board.floodProcess_cons] at hrev
    by_cases h1 : ((b.getCell nx ny).revealed || (b.getCell nx ny).flagged) = true
    · rw [if_pos h1] at hrev
      rcases ih b hwf stack hrest p hpib hrev with h | ⟨hm, hf, hmn⟩
      · exact Or.inl h
      · exact Or.inr ⟨List.mem_cons_of_mem _ hm, hf, hmn⟩
    · rw [if_neg h1] at hrev
      by_cases h2 : (b.getCell nx ny).mine = true
      · rw [if_pos h2] at hrev
        rcases ih b hwf stack hrest p hpib hrev with h | ⟨hm, hf, hmn⟩
        · exact Or.inl h
        · exact Or.inr ⟨List.mem_cons_of_mem _ hm, hf, hmn⟩
      · rw [if_neg h2] at hrev
        simp only [Bool.or_eq_true, not_or, Bool.not_eq_true] at h1
        have hwf' := b.markRevealed_WF hwf nx ny
        have hrest' : ∀ q ∈ rest, (b.markRevealed nx ny).in_bounds q.1 q.2 = true := by
          intro q hq
          rw [Board.in_bounds_congr (b.markRevealed_w nx ny) (b.markRevealed_h nx ny)]
          exact hrest q hq
        have hpib' : (b.markRevealed nx ny).in_bounds p.1 p.2 = true := by
          rw [Board.in_bounds_congr (b.markRevealed_w nx ny) (b.markRevealed_h nx ny)]
          exact hpib
        rcases ih (b.markRevealed nx ny) hwf'
            (if ((b.getCell nx ny).adj == 0) = true then (nx, ny) :: stack else stack)
            hrest' p hpib' hrev with h | ⟨hm, hf, hmn⟩
        · rw [b.getCell_markRevealed hwf hhd p.1 p.2 hpib] at h
          by_cases heq : (p.1, p.2) = (nx, ny)
          · rw [if_pos heq] at h
            right
            have hp : p = (nx, ny) := heq
            refine ⟨hp ▸ List.mem_cons_self _ _, ?_, ?_⟩
            · rw [show b.getCell p.1 p.2 = b.getCell nx ny from by rw [hp]]
              exact h1.2
            · rw [show b.getCell p.1 p.2 = b.getCell nx ny from by rw [hp]]
              simp only [Bool.not_eq_true] at h2
              exact h2
          · rw [if_neg heq] at h
            exact Or.inl h
        · have hkeep := b.markRevealed_keeps hwf hhd p.1 p.2
          exact Or.inr ⟨List.mem_cons_of_mem _ hm, hkeep.1 ▸ hf, hkeep.2.1 ▸ hmn⟩

theorem Board.floodProcess_stack_grow (b : Board) (stack ns : List (Int × Int)) :
    ∀ p ∈ stack, p ∈ (b.floodProcess stack ns).2 := by
  induction ns generalizing b stack with
  | nil => intro p hp
           exact hp
  | cons hd rest ih =>
    obtain ⟨nx, ny⟩ := hd
    intro p hp
    rw [Board.floodProcess_cons]
    by_cases h1 : ((b.getCell nx ny).revealed || (b.getCell nx ny).flagged) = true
    · rw [if_pos h1]
      exact ih b stack p hp
    · rw [if_neg h1]
      by_cases h2 : (b.getCell nx ny).mine = true
      · rw [if_pos h2]
        exact ih b stack p hp
      · rw [if_neg h2]
        apply ih
        split
        · exact List.mem_cons_of_mem _ hp
        · exact hp

theorem Board.floodProcess_stack_char (b : Board) (hwf : b.WF) (stack ns : List (Int × Int))
    (hns : ∀ p ∈ ns, b.in_bounds p.1 p.2 = true) :
    ∀ p ∈ (b.floodProcess stack ns).2, p ∈ stack ∨
      (p ∈ ns ∧ ((b.floodProcess stack ns).1.getCell p.1 p.2).revealed = true ∧
        (b.getCell p.1 p.2).revealed = false ∧ (b.getCell p.1 p.2).adj = 0 ∧
        (b.getCell p.1 p.2).flagged = false ∧ (b.getCell p.1 p.2).mine = false) := by
  induction ns generalizing b stack with
  | nil => intro p hp
           exact Or.inl hp
  | cons hd rest ih =>
    obtain ⟨nx, ny⟩ := hd
    have hhd : b.in_bounds nx ny = true := hns (nx, ny) (List.mem_cons_self _ _)
    have hrest : ∀ p ∈ rest, b.in_bounds p.1 p.2 = true :=
      fun p hp => hns p (List.mem_cons_of_mem _ hp)
    intro p hp
    rw [Board.floodProcess_cons] at hp ⊢
    by_cases h1 : ((b.getCell nx ny).revealed || (b.getCell nx ny).flagged) = true
    · rw [if_pos h1] at hp ⊢
      rcases ih b hwf stack hrest p hp with h | ⟨hm, hr, hnr, ha, hf, hmn⟩
      · exact Or.inl h
      · exact Or.inr ⟨List.mem_cons_of_mem _ hm, hr, hnr, ha, hf, hmn⟩
    · rw [if_neg h1] at hp ⊢
      by_cases h2 : (b.getCell nx ny).mine = true
      · rw [if_pos h2] at hp ⊢
        rcases ih b hwf stack hrest p hp with h | ⟨hm, hr, hnr, ha, hf, hmn⟩
        · exact Or.inl h
        · exact Or.inr ⟨List.mem_cons_of_mem _ hm, hr, hnr, ha, hf, hmn⟩
      · rw [if_neg h2] at hp ⊢
        simp only [Bool.or_eq_true, not_or, Bool.not_eq_true] at h1
        simp only [Bool.not_eq_true] at h2
        have hwf' := b.markRevealed_WF hwf nx ny
        have hrest' : ∀ q ∈ rest, (b.markRevealed nx ny).in_bounds q.1 q.2 = true := by
          intro q hq
          rw [Board.in_bounds_congr (b.markRevealed_w nx ny) (b.markRevealed_h nx ny)]
          exact hrest q hq
        rcases ih (b.markRevealed nx ny) hwf'
            (if ((b.getCell nx ny).adj == 0) = true then (nx, ny) :: stack else stack)
            hrest' p hp with h | ⟨hm, hr, hnr, ha, hf, hmn⟩
        · by_cases hpush : ((b.getCell nx ny).adj == 0) = true
          · rw [if_pos hpush] at h
            rcases List.mem_cons.mp h with rfl | hmem
            · right
              refine ⟨List.mem_cons_self _ _, ?_, h1.1, beq_iff_eq.mp hpush, h1.2, h2⟩
              have hrev : ((b.markRevealed nx ny).getCell nx ny).revealed = true := by
                rw [b.getCell_markRevealed_self hwf hhd]
              exact ((b.markRevealed nx ny).floodProcess_frame hwf' _ rest hrest'
                nx ny).2.2.2 hrev
            · exact Or.inl hmem
          · rw [if_neg hpush] at h
            exact Or.inl h
        · have hkeep := b.markRevealed_keeps hwf hhd p.1 p.2
          have hnrb : (b.getCell p.1 p.2).revealed = false := by
            by_contra hc
            simp only [Bool.not_eq_false] at hc
            have := b.markRevealed_mono hwf hhd p.1 p.2 hc
            rw [this] at hnr
            cases hnr
          exact Or.inr ⟨List.mem_cons_of_mem _ hm, hr, hnrb, hkeep.2.2 ▸ ha,
            hkeep.1 ▸ hf, hkeep.2.1 ▸ hmn⟩

theorem Board.floodProcess_newStack (b : Board) (hwf : b.WF) (stack ns : List (Int × Int))
    (hns : ∀ p ∈ ns, b.in_bounds p.1 p.2 = true) :
    ∀ p : Int × Int, b.in_bounds p.1 p.2 = true →
      ((b.floodProcess stack ns).1.getCell p.1 p.2).revealed = true →
      (b.getCell p.1 p.2).revealed = false → (b.getCell p.1 p.2).adj = 0 →
      p ∈ (b.floodProcess stack ns).2 := by
  induction ns generalizing b stack with
  | nil =>
    intro p hpib hrev hnr ha
    have hrev' : (b.getCell p.1 p.2).revealed = true := hrev
    rw [hrev'] at hnr
    cases hnr
  | cons hd rest ih =>
    obtain ⟨nx, ny⟩ := hd
    have hhd : b.in_bounds nx ny = true := hns (nx, ny) (List.mem_cons_self _ _)
    have hrest : ∀ p ∈ rest, b.in_bounds p.1 p.2 = true :=
      fun p hp => hns p (List.mem_cons_of_mem _ hp)
    intro p hpib hrev hnr ha
    rw [Board.floodProcess_cons] at hrev ⊢
    by_cases h1 : ((b.getCell nx ny).revealed || (b.getCell nx ny).flagged) = true
    · rw [if_pos h1] at hrev ⊢
      exact ih b hwf stack hrest p hpib hrev hnr ha
    · rw [if_neg h1] at hrev ⊢
      by_cases h2 : (b.getCell nx ny).mine = true
      · rw [if_pos h2] at hrev ⊢
        exact ih b hwf stack hrest p hpib hrev hnr ha
      · rw [if_neg h2] at hrev ⊢
        have hwf' := b.markRevealed_WF hwf nx ny
        have hrest' : ∀ q ∈ rest, (b.markRevealed nx ny).in_bounds q.1 q.2 = true := by
          intro q hq
          rw [Board.in_bounds_congr (b.markRevealed_w nx ny) (b.markRevealed_h nx ny)]
          exact hrest q hq
        have hpib' : (b.markRevealed nx ny).in_bounds p.1 p.2 = true := by
          rw [Board.in_bounds_congr (b.markRevealed_w nx ny) (b.markRevealed_h nx ny)]
          exact hpib
        by_cases heq : (p.1, p.2) = (nx, ny)
        · have hp : p = (nx, ny) := heq
          have hpush : ((b.getCell nx ny).adj == 0) = true := by
            rw [beq_iff_eq]
            rw [show b.getCell nx ny = b.getCell p.1 p.2 from by rw [hp]]
            exact ha
          rw [if_pos hpush]
          apply (b.markRevealed nx ny).floodProcess_stack_grow
          rw [hp]
          exact List.mem_cons_self _ _
        · have hmr : ((b.markRevealed nx ny).getCell p.1 p.2).revealed = false := by
            rw [b.getCell_markRevealed hwf hhd p.1 p.2 hpib, if_neg heq]
            exact hnr
          have hka := (b.markRevealed_keeps hwf hhd p.1 p.2).2.2
          exact ih (b.markRevealed nx ny) hwf'
            (if ((b.getCell nx ny).adj == 0) = true then (nx, ny) :: stack else stack)
            hrest' p hpib' hrev hmr (hka.trans ha)

theorem Board.floodLoop_fields (fuel : Nat) (b : Board) (stack : List (Int × Int))
    (hwf : b.WF) :
    (Board.floodLoop fuel b stack).1.WF ∧
    (Board.floodLoop fuel b stack).1.w = b.w ∧
    (Board.floodLoop fuel b stack).1.h = b.h ∧
    (Board.floodLoop fuel b stack).1.mine_target = b.mine_target ∧
    (Board.floodLoop fuel b stack).1.mines_placed = b.mines_placed ∧
    (Board.floodLoop fuel b stack).1.revealed_count +
        ((Board.floodLoop fuel b stack).1.unrevealed : Int) =
      b.revealed_count + (b.unrevealed : Int) ∧
    (∀ u v : Int,
      ((Board.floodLoop fuel b stack).1.getCell u v).flagged = (b.getCell u v).flagged ∧
      ((Board.floodLoop fuel b stack).1.getCell u v).mine = (b.getCell u v).mine ∧
      ((Board.floodLoop fuel b stack).1.getCell u v).adj = (b.getCell u v).adj) ∧
    (∀ u v : Int, (b.getCell u v).revealed = true →
      ((Board.floodLoop fuel b stack).1.getCell u v).revealed = true) := by
  induction fuel generalizing b stack with
  | zero =>
    cases stack with
    | nil => exact ⟨hwf, rfl, rfl, rfl, rfl, rfl, fun u v => ⟨rfl, rfl, rfl⟩, fun u v h => h⟩
    | cons hd tl =>
      exact ⟨hwf, rfl, rfl, rfl, rfl, rfl, fun u v => ⟨rfl, rfl, rfl⟩, fun u v h => h⟩
  | succ n ih =>
    cases stack with
    | nil => exact ⟨hwf, rfl, rfl, rfl, rfl, rfl, fun u v => ⟨rfl, rfl, rfl⟩, fun u v h => h⟩
    | cons hd tl =>
      obtain ⟨cx, cy⟩ := hd
      rw [Board.floodLoop_cons]
      have hns : ∀ p ∈ b.neighbors cx cy, b.in_bounds p.1 p.2 = true :=
        fun p hp => b.mem_neighbors_in_bounds hp
      have hpf := b.floodProcess_fields hwf tl (b.neighbors cx cy) hns
      have hih := ih (b.floodProcess tl (b.neighbors cx cy)).1
        (b.floodProcess tl (b.neighbors cx cy)).2 hpf.1
      refine ⟨hih.1, hih.2.1.trans hpf.2.1, hih.2.2.1.trans hpf.2.2.1,
        hih.2.2.2.1.trans hpf.2.2.2.1, hih.2.2.2.2.1.trans hpf.2.2.2.2.1, ?_, ?_, ?_⟩
      · have h1 := hih.2.2.2.2.2.1
        have h2 := hpf.2.2.2.2.2.1
        omega
      · intro u v
        have hf := b.floodProcess_frame hwf tl (b.neighbors cx cy) hns u v
        have hl := hih.2.2.2.2.2.2.1 u v
        exact ⟨hl.1.trans hf.1, hl.2.1.trans hf.2.1, hl.2.2.trans hf.2.2.1⟩
      · intro u v h
        have hf := b.floodProcess_frame hwf tl (b.neighbors cx cy) hns u v
        exact hih.2.2.2.2.2.2.2 u v (hf.2.2.2 h)

/-- C9: the flood-fill loop always terminates: with fuel at least the
number of unrevealed in-bounds cells plus the stack size, the loop
reaches the empty stack.  Each iteration pops one entry and pushes only
cells it just revealed — each at most once — so `reveal`'s fuel of
`unrevealed + 1` always suffices and `reveal` is a total function. -/
theorem flood_loop_terminates (fuel : Nat) (b : Board) (stack : List (Int × Int))
    (hwf : b.WF) (hfuel : b.unrevealed + stack.length ≤ fuel) :
    (Board.floodLoop fuel b stack).2 = true := by
  induction fuel generalizing b stack with
  | zero =>
    cases stack with
    | nil => rfl
    | cons hd tl =>
      exfalso
      simp only [List.length_cons] at hfuel
      omega
  | succ n ih =>
    cases stack with
    | nil => rfl
    | cons hd tl =>
      obtain ⟨cx, cy⟩ := hd
      rw [Board.floodLoop_cons]
      have hns : ∀ p ∈ b.neighbors cx cy, b.in_bounds p.1 p.2 = true :=
        fun p hp => b.mem_neighbors_in_bounds hp
      have hpf := b.floodProcess_fields hwf tl (b.neighbors cx cy) hns
      apply ih _ _ hpf.1
      have hm := hpf.2.2.2.2.2.2
      simp only [List.length_cons] at hfuel
      omega

/-- C9 witness: the loop inside a concrete reveal finishes. -/
theorem flood_loop_terminates_witness :
    demo3Placed.WF ∧
    demo3Placed.unrevealed + [((0 : Int), (0 : Int))].length ≤ demo3Placed.unrevealed + 1 ∧
    (Board.floodLoop (demo3Placed.unrevealed + 1) demo3Placed [(0, 0)]).2 = true :=
  ⟨by decide, by decide,
    flood_loop_terminates (demo3Placed.unrevealed + 1) demo3Placed [(0, 0)] (by decide)
      (by decide)⟩

/-- A cell of the flood region is eligible: in bounds, unrevealed,
unflagged, not a mine — all in the pre-reveal board. -/
theorem Flood_eligible {b : Board} {x y : Int} {p : Int × Int}
    (h : Flood b x y p) : Eligible b p := by
  cases h with
  | start q hq he => exact he
  | step q p hq ha hnb he => exact he

/-- Loop invariant for the flood fill, relative to the pre-reveal board
`b0` and the clicked cell `(x, y)`: everything the loop has revealed is
in the flood region, stack entries are revealed region members with zero
adjacency, and every revealed zero cell is on the stack or has all its
eligible neighbors revealed.  The conclusions transport the first and
third facts to the loop's final board. -/
theorem Board.floodLoop_inv (b0 : Board) (x y : Int) (fuel : Nat) :
    ∀ (bCur : Board) (stack : List (Int × Int)),
    bCur.WF → bCur.w = b0.w → bCur.h = b0.h →
    (∀ u v : Int, (bCur.getCell u v).flagged = (b0.getCell u v).flagged ∧
      (bCur.getCell u v).mine = (b0.getCell u v).mine ∧
      (bCur.getCell u v).adj = (b0.getCell u v).adj) →
    (∀ u v : Int, (b0.getCell u v).revealed = true → (bCur.getCell u v).revealed = true) →
    (∀ p : Int × Int, b0.in_bounds p.1 p.2 = true → (bCur.getCell p.1 p.2).revealed = true →
      (b0.getCell p.1 p.2).revealed = true ∨ p = (x, y) ∨ Flood b0 x y p) →
    (∀ p ∈ stack, b0.in_bounds p.1 p.2 = true ∧ (p = (x, y) ∨ Flood b0 x y p) ∧
      (bCur.getCell p.1 p.2).revealed = true ∧ (b0.getCell p.1 p.2).adj = 0) →
    (∀ p : Int × Int, b0.in_bounds p.1 p.2 = true → (bCur.getCell p.1 p.2).revealed = true →
      (b0.getCell p.1 p.2).revealed = false → (b0.getCell p.1 p.2).adj = 0 →
      p ∈ stack ∨ ∀ q ∈ b0.neighbors p.1 p.2, (b0.getCell q.1 q.2).flagged = false →
        (b0.getCell q.1 q.2).mine = false → (bCur.getCell q.1 q.2).revealed = true) →
    (∀ p : Int × Int, b0.in_bounds p.1 p.2 = true →
      ((Board.floodLoop fuel bCur stack).1.getCell p.1 p.2).revealed = true →
      (b0.getCell p.1 p.2).revealed = true ∨ p = (x, y) ∨ Flood b0 x y p) ∧
    ((Board.floodLoop fuel bCur stack).2 = true →
      ∀ p : Int × Int, b0.in_bounds p.1 p.2 = true →
      ((Board.floodLoop fuel bCur stack).1.getCell p.1 p.2).revealed = true →
      (b0.getCell p.1 p.2).revealed = false → (b0.getCell p.1 p.2).adj = 0 →
      ∀ q ∈ b0.neighbors p.1 p.2, (b0.getCell q.1 q.2).flagged = false →
        (b0.getCell q.1 q.2).mine = false →
        ((Board.floodLoop fuel bCur stack).1.getCell q.1 q.2).revealed = true) := by
  induction fuel with
  | zero =>
    intro bCur stack hwf hw hh hkeep hmono hA2 hA3 hA4
    cases stack with
    | nil =>
      refine ⟨hA2, fun _ p hpib hrev hnr ha q hq hf hm => ?_⟩
      rcases hA4 p hpib hrev hnr ha with h | h
      · cases h
      · exact h q hq hf hm
    | cons hd tl =>
      exact ⟨hA2, fun hflag => by cases hflag⟩
  | succ n ih =>
    intro bCur stack hwf hw hh hkeep hmono hA2 hA3 hA4
    cases stack with
    | nil =>
      refine ⟨hA2, fun _ p hpib hrev hnr ha q hq hf hm => ?_⟩
      rcases hA4 p hpib hrev hnr ha with h | h
      · cases h
      · exact h q hq hf hm
    | cons hd tl =>
      obtain ⟨cx, cy⟩ := hd
      rw [Board.floodLoop_cons]
      have hns : ∀ p ∈ bCur.neighbors cx cy, bCur.in_bounds p.1 p.2 = true :=
        fun p hp => bCur.mem_neighbors_in_bounds hp
      have hnb0 : bCur.neighbors cx cy = b0.neighbors cx cy :=
        Board.neighbors_congr hw hh cx cy
      have hibc : ∀ u v : Int, bCur.in_bounds u v = b0.in_bounds u v :=
        fun u v => Board.in_bounds_congr hw hh u v
      have hc := hA3 (cx, cy) (List.mem_cons_self _ _)
      have hpf := bCur.floodProcess_fields hwf tl (bCur.neighbors cx cy) hns
      have hframe := fun u v =>
        bCur.floodProcess_frame hwf tl (bCur.neighbors cx cy) hns u v
      have hflood_new : ∀ p ∈ bCur.neighbors cx cy,
          (bCur.getCell p.1 p.2).revealed = false →
          (bCur.getCell p.1 p.2).flagged = false →
          (bCur.getCell p.1 p.2).mine = false → Flood b0 x y p := by
        intro p hp hnr hnf hnm
        have hpibc : bCur.in_bounds p.1 p.2 = true := hns p hp
        have hpib0 : b0.in_bounds p.1 p.2 = true := (hibc p.1 p.2) ▸ hpibc
        have hnr0 : (b0.getCell p.1 p.2).revealed = false := by
          by_contra hcon
          simp only [Bool.not_eq_false] at hcon
          rw [hmono p.1 p.2 hcon] at hnr
          cases hnr
        have hel : Eligible b0 p :=
          ⟨hpib0, hnr0, ((hkeep p.1 p.2).1).symm.trans hnf,
            ((hkeep p.1 p.2).2.1).symm.trans hnm⟩
        have hp0 : p ∈ b0.neighbors cx cy := hnb0 ▸ hp
        rcases hc.2.1 with hstart | hfl
        · have hcx : cx = x := congrArg Prod.fst hstart
          have hcy : cy = y := congrArg Prod.snd hstart
          subst hcx
          subst hcy
          exact Flood.start p hp0 hel
        · exact Flood.step (cx, cy) p hfl hc.2.2.2 hp0 hel
      -- invariant components for the processed state
      have hA2' : ∀ p : Int × Int, b0.in_bounds p.1 p.2 = true →
          (((bCur.floodProcess tl (bCur.neighbors cx cy)).1.getCell p.1 p.2).revealed = true) →
          (b0.getCell p.1 p.2).revealed = true ∨ p = (x, y) ∨ Flood b0 x y p := by
        intro p hpib hrev
        have hpibc : bCur.in_bounds p.1 p.2 = true := (hibc p.1 p.2).symm ▸ hpib
        rcases bCur.floodProcess_sound hwf tl (bCur.neighbors cx cy) hns p hpibc hrev with
          h | ⟨hm, hf, hmn⟩
        · exact hA2 p hpib h
        · by_cases hrc : (bCur.getCell p.1 p.2).revealed = true
          · exact hA2 p hpib hrc
          · simp only [Bool.not_eq_true] at hrc
            exact Or.inr (Or.inr (hflood_new p hm hrc hf hmn))
      have hA3' : ∀ p ∈ (bCur.floodProcess tl (bCur.neighbors cx cy)).2,
          b0.in_bounds p.1 p.2 = true ∧ (p = (x, y) ∨ Flood b0 x y p) ∧
          ((bCur.floodProcess tl (bCur.neighbors cx cy)).1.getCell p.1 p.2).revealed = true ∧
          (b0.getCell p.1 p.2).adj = 0 := by
        intro p hp
        rcases bCur.floodProcess_stack_char hwf tl (bCur.neighbors cx cy) hns p hp with
          h | ⟨hm, hr, hnr, ha, hf, hmn⟩
        · have ht := hA3 p (List.mem_cons_of_mem _ h)
          exact ⟨ht.1, ht.2.1, (hframe p.1 p.2).2.2.2 ht.2.2.1, ht.2.2.2⟩
        · have hpibc : bCur.in_bounds p.1 p.2 = true := hns p hm
          have hpib0 : b0.in_bounds p.1 p.2 = true := (hibc p.1 p.2) ▸ hpibc
          refine ⟨hpib0, Or.inr (hflood_new p hm hnr hf hmn), hr, ?_⟩
          exact ((hkeep p.1 p.2).2.2).symm.trans ha
      have hA4' : ∀ p : Int × Int, b0.in_bounds p.1 p.2 = true →
          ((bCur.floodProcess tl (bCur.neighbors cx cy)).1.getCell p.1 p.2).revealed = true →
          (b0.getCell p.1 p.2).revealed = false → (b0.getCell p.1 p.2).adj = 0 →
          p ∈ (bCur.floodProcess tl (bCur.neighbors cx cy)).2 ∨
            ∀ q ∈ b0.neighbors p.1 p.2, (b0.getCell q.1 q.2).flagged = false →
              (b0.getCell q.1 q.2).mine = false →
              ((bCur.floodProcess tl (bCur.neighbors cx cy)).1.getCell q.1 q.2).revealed =
                true := by
        intro p hpib hrev hnr0 ha0
        have hpibc : bCur.in_bounds p.1 p.2 = true := (hibc p.1 p.2).symm ▸ hpib
        by_cases hrc : (bCur.getCell p.1 p.2).revealed = true
        · rcases hA4 p hpib hrc hnr0 ha0 with h | h
          · rcases List.mem_cons.mp h with rfl | hmem
            · right
              intro q hq hf hm
              have hq' : q ∈ bCur.neighbors cx cy := by
                rw [show bCur.neighbors cx cy = b0.neighbors cx cy from
                  Board.neighbors_congr hw hh cx cy]
                exact hq
              refine bCur.floodProcess_covers hwf tl (bCur.neighbors cx cy) hns q hq' ?_ ?_
              · exact ((hkeep q.1 q.2).1).trans hf
              · exact ((hkeep q.1 q.2).2.1).trans hm
            · exact Or.inl (bCur.floodProcess_stack_grow tl (bCur.neighbors cx cy) p hmem)
          · right
            intro q hq hf hm
            exact (hframe q.1 q.2).2.2.2 (h q hq hf hm)
        · simp only [Bool.not_eq_true] at hrc
          left
          refine bCur.floodProcess_newStack hwf tl (bCur.neighbors cx cy) hns p hpibc hrev
            hrc ?_
          exact ((hkeep p.1 p.2).2.2).trans ha0
      have hkeep' : ∀ u v : Int,
          (((bCur.floodProcess tl (bCur.neighbors cx cy)).1.getCell u v).flagged =
            (b0.getCell u v).flagged) ∧
          (((bCur.floodProcess tl (bCur.neighbors cx cy)).1.getCell u v).mine =
            (b0.getCell u v).mine) ∧
          (((bCur.floodProcess tl (bCur.neighbors cx cy)).1.getCell u v).adj =
            (b0.getCell u v).adj) :=
        fun u v => ⟨((hframe u v).1).trans (hkeep u v).1,
          ((hframe u v).2.1).trans (hkeep u v).2.1,
          ((hframe u v).2.2.1).trans (hkeep u v).2.2⟩
      have hmono' : ∀ u v : Int, (b0.getCell u v).revealed = true →
          ((bCur.floodProcess tl (bCur.neighbors cx cy)).1.getCell u v).revealed = true :=
        fun u v h => (hframe u v).2.2.2 (hmono u v h)
      exact ih (bCur.floodProcess tl (bCur.neighbors cx cy)).1
        (bCur.floodProcess tl (bCur.neighbors cx cy)).2 hpf.1
        (hpf.2.1.trans hw) (hpf.2.2.1.trans hh) hkeep' hmono' hA2' hA3' hA4'

/-- Completeness: once the loop has finished (empty stack), the closure
property forces every flood-region cell to be revealed. -/
theorem flood_complete (b0 : Board) (x y : Int) (bF : Board)
    (hibxy : b0.in_bounds x y = true)
    (hxyrev : (bF.getCell x y).revealed = true)
    (hnr0 : (b0.getCell x y).revealed = false)
    (hadj : (b0.getCell x y).adj = 0)
    (hclose : ∀ p : Int × Int, b0.in_bounds p.1 p.2 = true →
      (bF.getCell p.1 p.2).revealed = true → (b0.getCell p.1 p.2).revealed = false →
      (b0.getCell p.1 p.2).adj = 0 →
      ∀ q ∈ b0.neighbors p.1 p.2, (b0.getCell q.1 q.2).flagged = false →
        (b0.getCell q.1 q.2).mine = false → (bF.getCell q.1 q.2).revealed = true) :
    ∀ p : Int × Int, Flood b0 x y p → (bF.getCell p.1 p.2).revealed = true := by
  intro p hf
  induction hf with
  | start q hqnb hqel =>
    exact hclose (x, y) hibxy hxyrev hnr0 hadj q hqnb hqel.2.2.1 hqel.2.2.2
  | step q r hq hadjq hrnb hrel ihq =>
    have hqel := Flood_eligible hq
    exact hclose q hqel.1 ihq hqel.2.1 hadjq r hrnb hrel.2.2.1 hrel.2.2.2

theorem Board.unrevealed_add_revealedCells (b : Board) :
    b.unrevealed + b.revealedCells = b.allCoords.length := by
  unfold Board.unrevealed Board.revealedCells
  have h : b.allCoords.length =
      (b.allCoords.filter (fun p => (b.getCell p.1 p.2).revealed)).length +
      (b.allCoords.filter (fun p => !(b.getCell p.1 p.2).revealed)).length :=
    List.length_eq_length_filter_add _
  omega

theorem length_filter_mono {α} (l : List α) (f g : α → Bool)
    (h : ∀ a ∈ l, f a = true → g a = true) :
    (l.filter f).length ≤ (l.filter g).length := by
  induction l with
  | nil => simp
  | cons a as ih =>
    have ih' := ih (fun c hc hfc => h c (List.mem_cons_of_mem _ hc) hfc)
    by_cases hf : f a = true
    · rw [List.filter_cons_of_pos hf, List.filter_cons_of_pos (h a (List.mem_cons_self _ _) hf)]
      simpa using ih'
    · rw [List.filter_cons_of_neg (by simpa using hf)]
      by_cases hg : g a = true
      · rw [List.filter_cons_of_pos hg]
        simp only [List.length_cons]
        omega
      · rw [List.filter_cons_of_neg (by simpa using hg)]
        exact ih'

/-- C2: with mines placed, revealing an in-bounds, unflagged, unrevealed
non-mine cell of adjacency 0 returns `(true, false)` and reveals exactly
the flood-fill region: a cell is revealed afterwards iff it was revealed
before, is the clicked cell, or lies in the region `Flood` grown through
eligible zero-adjacency cells; region cells are never mines, never
flagged and were unrevealed; no flag or mine bit changes anywhere; and
`revealedCount` grows by exactly the number of newly revealed cells. -/
theorem reveal_flood_fill (b : Board) (s : List (Int × Int)) (x y : Int)
    (hwf : b.WF) (hmp : b.mines_placed = true)
    (hib : b.in_bounds x y = true)
    (hnf : (b.getCell x y).flagged = false) (hnr : (b.getCell x y).revealed = false)
    (hnm : (b.getCell x y).mine = false) (hadj : (b.getCell x y).adj = 0) :
    (b.reveal s x y).2 = (true, false) ∧
    (∀ p : Int × Int, b.in_bounds p.1 p.2 = true →
      (((b.reveal s x y).1.getCell p.1 p.2).revealed = true ↔
        (b.getCell p.1 p.2).revealed = true ∨ p = (x, y) ∨ Flood b x y p)) ∧
    (∀ p : Int × Int, Flood b x y p →
      (b.getCell p.1 p.2).flagged = false ∧ (b.getCell p.1 p.2).mine = false ∧
        (b.getCell p.1 p.2).revealed = false) ∧
    (∀ u v : Int, ((b.reveal s x y).1.getCell u v).flagged = (b.getCell u v).flagged ∧
      ((b.reveal s x y).1.getCell u v).mine = (b.getCell u v).mine) ∧
    (∃ n : Nat, (b.reveal s x y).1.revealedCells = b.revealedCells + n ∧
      (b.reveal s x y).1.revealed_count = b.revealed_count + n) := by
  have hpath : b.reveal s x y =
      ((Board.floodLoop ((b.markRevealed x y).unrevealed + 1) (b.markRevealed x y)
        [(x, y)]).1, true, false) := by
    unfold Board.reveal
    simp [hib, hnf, hnr, hmp, hnm, hadj]
  have hwfM : (b.markRevealed x y).WF := b.markRevealed_WF hwf x y
  have hkeepM := fun u v => b.markRevealed_keeps hwf hib u v
  have hmonoM := fun u v => b.markRevealed_mono hwf hib u v
  have hselfM : ((b.markRevealed x y).getCell x y).revealed = true := by
    rw [b.getCell_markRevealed_self hwf hib]
  have hA2i : ∀ p : Int × Int, b.in_bounds p.1 p.2 = true →
      ((b.markRevealed x y).getCell p.1 p.2).revealed = true →
      (b.getCell p.1 p.2).revealed = true ∨ p = (x, y) ∨ Flood b x y p := by
    intro p hpib hrev
    rw [b.getCell_markRevealed hwf hib p.1 p.2 hpib] at hrev
    by_cases heq : (p.1, p.2) = (x, y)
    · exact Or.inr (Or.inl heq)
    · rw [if_neg heq] at hrev
      exact Or.inl hrev
  have hA3i : ∀ p ∈ [((x : Int), (y : Int))], b.in_bounds p.1 p.2 = true ∧
      (p = (x, y) ∨ Flood b x y p) ∧
      ((b.markRevealed x y).getCell p.1 p.2).revealed = true ∧
      (b.getCell p.1 p.2).adj = 0 := by
    intro p hp
    rcases List.mem_cons.mp hp with rfl | hmem
    · exact ⟨hib, Or.inl rfl, hselfM, hadj⟩
    · cases hmem
  have hA4i : ∀ p : Int × Int, b.in_bounds p.1 p.2 = true →
      ((b.markRevealed x y).getCell p.1 p.2).revealed = true →
      (b.getCell p.1 p.2).revealed = false → (b.getCell p.1 p.2).adj = 0 →
      p ∈ [((x : Int), (y : Int))] ∨ ∀ q ∈ b.neighbors p.1 p.2,
        (b.getCell q.1 q.2).flagged = false → (b.getCell q.1 q.2).mine = false →
        ((b.markRevealed x y).getCell q.1 q.2).revealed = true := by
    intro p hpib hrev hnrp ha
    rw [b.getCell_markRevealed hwf hib p.1 p.2 hpib] at hrev
    by_cases heq : (p.1, p.2) = (x, y)
    · left
      have : p = (x, y) := heq
      rw [this]
      exact List.mem_cons_self _ _
    · rw [if_neg heq] at hrev
      rw [hrev] at hnrp
      cases hnrp
  have hinv := Board.floodLoop_inv b x y ((b.markRevealed x y).unrevealed + 1)
    (b.markRevealed x y) [(x, y)] hwfM (b.markRevealed_w x y) (b.markRevealed_h x y)
    hkeepM hmonoM hA2i hA3i hA4i
  have hdone : (Board.floodLoop ((b.markRevealed x y).unrevealed + 1)
      (b.markRevealed x y) [(x, y)]).2 = true :=
    flood_loop_terminates _ _ _ hwfM (by simp)
  have hLF := Board.floodLoop_fields ((b.markRevealed x y).unrevealed + 1)
    (b.markRevealed x y) [(x, y)] hwfM
  set bF := (Board.floodLoop ((b.markRevealed x y).unrevealed + 1)
    (b.markRevealed x y) [(x, y)]).1 with hbF
  have hr1 : (b.reveal s x y).1 = bF := by rw [hpath]
  have hmonoF : ∀ u v : Int, (b.getCell u v).revealed = true →
      (bF.getCell u v).revealed = true :=
    fun u v h => hLF.2.2.2.2.2.2.2 u v (hmonoM u v h)
  have hxyF : (bF.getCell x y).revealed = true := hLF.2.2.2.2.2.2.2 x y hselfM
  have hcloseF := hinv.2 hdone
  refine ⟨by rw [hpath], ?_, ?_, ?_, ?_⟩
  · intro p hpib
    rw [hr1]
    constructor
    · intro hrev
      exact hinv.1 p hpib hrev
    · rintro (h | h | h)
      · exact hmonoF p.1 p.2 h
      · rw [h]
        exact hxyF
      · exact flood_complete b x y bF hib hxyF hnr hadj hcloseF p h
  · intro p hf
    have he := Flood_eligible hf
    exact ⟨he.2.2.1, he.2.2.2, he.2.1⟩
  · intro u v
    rw [hr1]
    exact ⟨(hLF.2.2.2.2.2.2.1 u v).1.trans (hkeepM u v).1,
      (hLF.2.2.2.2.2.2.1 u v).2.1.trans (hkeepM u v).2.1⟩
  · have hcnt1 : bF.revealed_count + (bF.unrevealed : Int) =
        (b.markRevealed x y).revealed_count + ((b.markRevealed x y).unrevealed : Int) :=
      hLF.2.2.2.2.2.1
    have hcnt2 : (b.markRevealed x y).revealed_count = b.revealed_count + 1 :=
      b.markRevealed_count x y
    have hcnt3 : (b.markRevealed x y).unrevealed + 1 = b.unrevealed :=
      b.unrevealed_markRevealed hwf hib hnr
    have hcoF : bF.allCoords = b.allCoords := by
      apply Board.allCoords_congr
      · exact hLF.2.1.trans (b.markRevealed_w x y)
      · exact hLF.2.2.1.trans (b.markRevealed_h x y)
    have htotF : bF.unrevealed + bF.revealedCells = b.allCoords.length := by
      rw [← hcoF]
      exact bF.unrevealed_add_revealedCells
    have htotB : b.unrevealed + b.revealedCells = b.allCoords.length :=
      b.unrevealed_add_revealedCells
    have hcellsMono : b.revealedCells ≤ bF.revealedCells := by
      unfold Board.revealedCells
      rw [hcoF]
      exact length_filter_mono b.allCoords _ _ (fun p hp h => hmonoF p.1 p.2 h)
    rw [hr1]
    refine ⟨bF.revealedCells - b.revealedCells, by omega, ?_⟩
    omega

/-- Witness for C2: on the 3×3 board with its mine at `(2, 2)`, revealing
the zero-adjacency corner `(0, 0)` succeeds without a hit and floods the
neighbor `(1, 0)`. -/
theorem reveal_flood_fill_witness :
    demo3Placed.WF ∧ demo3Placed.mines_placed = true ∧
    (demo3Placed.reveal [] 0 0).2 = (true, false) ∧
    ((demo3Placed.reveal [] 0 0).1.getCell 1 0).revealed = true := by
  have h := reveal_flood_fill demo3Placed [] 0 0 (by decide) (by decide) (by decide)
    (by decide) (by decide) (by decide) (by decide)
  exact ⟨by decide, by decide, h.1,
    (h.2.1 (1, 0) (by decide)).mpr
      (Or.inr (Or.inr (Flood.start (1, 0) (by decide) (by decide))))⟩

/-! ## Reveal-level lemmas in the mines-placed regime (for the chord) -/

/-- With mines placed, `reveal` preserves well-formedness, the dimensions
and the placement flag, never touches a flag, mine or adjacency field,
and only ever turns `revealed` on. -/
theorem Board.reveal_placed_fields (b : Board) (s : List (Int × Int)) (x y : Int)
    (hwf : b.WF) (hmp : b.mines_placed = true) :
    (b.reveal s x y).1.WF ∧
    (b.reveal s x y).1.w = b.w ∧
    (b.reveal s x y).1.h = b.h ∧
    (b.reveal s x y).1.mines_placed = true ∧
    (∀ u v : Int,
      ((b.reveal s x y).1.getCell u v).flagged = (b.getCell u v).flagged ∧
      ((b.reveal s x y).1.getCell u v).mine = (b.getCell u v).mine ∧
      ((b.reveal s x y).1.getCell u v).adj = (b.getCell u v).adj) ∧
    (∀ u v : Int, (b.getCell u v).revealed = true →
      ((b.reveal s x y).1.getCell u v).revealed = true) := by
  by_cases hib : b.in_bounds x y = true
  · by_cases hf : (b.getCell x y).flagged = true
    · have hr : (b.reveal s x y).1 = b := by
        unfold Board.reveal; simp [hib, hf]
      rw [hr]
      exact ⟨hwf, rfl, rfl, hmp, fun u v => ⟨rfl, rfl, rfl⟩, fun u v h => h⟩
    · simp only [Bool.not_eq_true] at hf
      by_cases hrev : (b.getCell x y).revealed = true
      · have hr : (b.reveal s x y).1 = b := by
          unfold Board.reveal; simp [hib, hf, hrev]
        rw [hr]
        exact ⟨hwf, rfl, rfl, hmp, fun u v => ⟨rfl, rfl, rfl⟩, fun u v h => h⟩
      · simp only [Bool.not_eq_true] at hrev
        have hwfM : (b.markRevealed x y).WF := b.markRevealed_WF hwf x y
        by_cases hm : (b.getCell x y).mine = true
        · have hr : (b.reveal s x y).1 = b.markRevealed x y := by
            unfold Board.reveal; simp [hib, hf, hrev, hmp, hm]
          rw [hr]
          exact ⟨hwfM, rfl, rfl, hmp, fun u v => b.markRevealed_keeps hwf hib u v,
            fun u v h => b.markRevealed_mono hwf hib u v h⟩
        · simp only [Bool.not_eq_true] at hm
          by_cases ha : (b.getCell x y).adj = 0
          · have hr : (b.reveal s x y).1 =
                (Board.floodLoop ((b.markRevealed x y).unrevealed + 1)
                  (b.markRevealed x y) [(x, y)]).1 := by
              unfold Board.reveal; simp [hib, hf, hrev, hmp, hm, ha]
            have hLF := Board.floodLoop_fields ((b.markRevealed x y).unrevealed + 1)
              (b.markRevealed x y) [(x, y)] hwfM
            rw [hr]
            refine ⟨hLF.1, hLF.2.1.trans (b.markRevealed_w x y),
              hLF.2.2.1.trans (b.markRevealed_h x y), ?_, ?_, ?_⟩
            · rw [hLF.2.2.2.2.1, b.markRevealed_mines_placed]; exact hmp
            · intro u v
              exact ⟨((hLF.2.2.2.2.2.2.1 u v).1).trans (b.markRevealed_keeps hwf hib u v).1,
                ((hLF.2.2.2.2.2.2.1 u v).2.1).trans (b.markRevealed_keeps hwf hib u v).2.1,
                ((hLF.2.2.2.2.2.2.1 u v).2.2).trans (b.markRevealed_keeps hwf hib u v).2.2⟩
            · intro u v h
              exact hLF.2.2.2.2.2.2.2 u v (b.markRevealed_mono hwf hib u v h)
          · have ha' : ((b.getCell x y).adj == 0) = false := by simp [ha]
            have hr : (b.reveal s x y).1 = b.markRevealed x y := by
              unfold Board.reveal; simp [hib, hf, hrev, hmp, hm, ha']
            rw [hr]
            exact ⟨hwfM, rfl, rfl, hmp, fun u v => b.markRevealed_keeps hwf hib u v,
              fun u v h => b.markRevealed_mono hwf hib u v h⟩
  · simp only [Bool.not_eq_true] at hib
    have hr : (b.reveal s x y).1 = b := by
      unfold Board.reveal; simp [hib]
    rw [hr]
    exact ⟨hwf, rfl, rfl, hmp, fun u v => ⟨rfl, rfl, rfl⟩, fun u v h => h⟩

/-- With mines placed, revealing an in-bounds, unflagged, unrevealed cell
is accepted, reports a hit exactly when the cell is a mine, and leaves
the cell revealed. -/
theorem Board.reveal_hit_placed (b : Board) (s : List (Int × Int)) (x y : Int)
    (hwf : b.WF) (hmp : b.mines_placed = true) (hib : b.in_bounds x y = true)
    (hnf : (b.getCell x y).flagged = false) (hnr : (b.getCell x y).revealed = false) :
    (b.reveal s x y).2.1 = true ∧
    (b.reveal s x y).2.2 = (b.getCell x y).mine ∧
    ((b.reveal s x y).1.getCell x y).revealed = true := by
  have hwfM := b.markRevealed_WF hwf x y
  have hself : ((b.markRevealed x y).getCell x y).revealed = true := by
    rw [b.getCell_markRevealed_self hwf hib]
  by_cases hm : (b.getCell x y).mine = true
  · have hr : b.reveal s x y = (b.markRevealed x y, true, true) := by
      unfold Board.reveal; simp [hib, hnf, hnr, hmp, hm]
    rw [hr]
    exact ⟨rfl, hm.symm, hself⟩
  · simp only [Bool.not_eq_true] at hm
    by_cases ha : (b.getCell x y).adj = 0
    · have hr : b.reveal s x y =
          ((Board.floodLoop ((b.markRevealed x y).unrevealed + 1) (b.markRevealed x y)
            [(x, y)]).1, true, false) := by
        unfold Board.reveal; simp [hib, hnf, hnr, hmp, hm, ha]
      rw [hr]
      exact ⟨rfl, hm.symm,
        (Board.floodLoop_fields _ _ _ hwfM).2.2.2.2.2.2.2 x y hself⟩
    · have ha' : ((b.getCell x y).adj == 0) = false := by simp [ha]
      have hr : b.reveal s x y = (b.markRevealed x y, true, false) := by
        unfold Board.reveal; simp [hib, hnf, hnr, hmp, hm, ha']
      rw [hr]
      exact ⟨rfl, hm.symm, hself⟩

theorem Board.chordNeighbors_cons (b : Board) (s : List (Int × Int)) (nx ny : Int)
    (rest : List (Int × Int)) :
    b.chordNeighbors s ((nx, ny) :: rest) =
      if !(b.getCell nx ny).flagged && !(b.getCell nx ny).revealed then
        if (b.reveal s nx ny).2.2 then ((b.reveal s nx ny).1, true)
        else (b.reveal s nx ny).1.chordNeighbors s rest
      else b.chordNeighbors s rest := rfl

/-- The chord's neighbor-reveal loop: fields it preserves, and its two
outcomes.  If no reveal hits a mine, every listed cell ends up flagged or
revealed; if one does, the loop stops right there — the result is the
loop run on the list truncated after the hit cell, which is a revealed
mine in the final board. -/
theorem Board.chordNeighbors_spec (s : List (Int × Int)) :
    ∀ (ns : List (Int × Int)) (b : Board), b.WF → b.mines_placed = true →
    (∀ p ∈ ns, b.in_bounds p.1 p.2 = true) →
    (b.chordNeighbors s ns).1.WF ∧
    (b.chordNeighbors s ns).1.w = b.w ∧
    (b.chordNeighbors s ns).1.h = b.h ∧
    (b.chordNeighbors s ns).1.mines_placed = true ∧
    (∀ u v : Int,
      ((b.chordNeighbors s ns).1.getCell u v).flagged = (b.getCell u v).flagged ∧
      ((b.chordNeighbors s ns).1.getCell u v).mine = (b.getCell u v).mine) ∧
    (∀ u v : Int, (b.getCell u v).revealed = true →
      ((b.chordNeighbors s ns).1.getCell u v).revealed = true) ∧
    ((b.chordNeighbors s ns).2 = false → ∀ p ∈ ns,
      ((b.chordNeighbors s ns).1.getCell p.1 p.2).flagged = true ∨
      ((b.chordNeighbors s ns).1.getCell p.1 p.2).revealed = true) ∧
    ((b.chordNeighbors s ns).2 = true →
      ∃ pre m post, ns = pre ++ m :: post ∧
        b.chordNeighbors s ns = b.chordNeighbors s (pre ++ [m]) ∧
        ((b.chordNeighbors s ns).1.getCell m.1 m.2).mine = true ∧
        ((b.chordNeighbors s ns).1.getCell m.1 m.2).revealed = true) := by
  intro ns
  induction ns with
  | nil =>
    intro b hwf hmp _
    refine ⟨hwf, rfl, rfl, hmp, fun u v => ⟨rfl, rfl⟩, fun u v h => h, ?_, ?_⟩
    · intro _ p hp; cases hp
    · intro h; exact absurd h (by simp [Board.chordNeighbors])
  | cons hd rest ih =>
    obtain ⟨nx, ny⟩ := hd
    intro b hwf hmp hns
    have hhdib : b.in_bounds nx ny = true := hns (nx, ny) (List.mem_cons_self _ _)
    have hrest : ∀ p ∈ rest, b.in_bounds p.1 p.2 = true :=
      fun p hp => hns p (List.mem_cons_of_mem _ hp)
    by_cases hg : (!(b.getCell nx ny).flagged && !(b.getCell nx ny).revealed) = true
    · have hfr0 := hg
      simp only [Bool.and_eq_true, Bool.not_eq_true'] at hfr0
      obtain ⟨hf, hr0⟩ := hfr0
      have hRF := b.reveal_placed_fields s nx ny hwf hmp
      have hRH := b.reveal_hit_placed s nx ny hwf hmp hhdib hf hr0
      by_cases hhit : (b.reveal s nx ny).2.2 = true
      · have hpath : b.chordNeighbors s ((nx, ny) :: rest) = ((b.reveal s nx ny).1, true) := by
          rw [Board.chordNeighbors_cons, if_pos hg, if_pos hhit]
        rw [hpath]
        refine ⟨hRF.1, hRF.2.1, hRF.2.2.1, hRF.2.2.2.1,
          fun u v => ⟨(hRF.2.2.2.2.1 u v).1, (hRF.2.2.2.2.1 u v).2.1⟩,
          fun u v h => hRF.2.2.2.2.2 u v h, ?_, ?_⟩
        · intro h; exact absurd h (by simp)
        · intro _
          refine ⟨[], (nx, ny), rest, rfl, ?_, ?_, hRH.2.2⟩
          · rw [List.nil_append, Board.chordNeighbors_cons, if_pos hg, if_pos hhit]
          · rw [(hRF.2.2.2.2.1 nx ny).2.1, ← hRH.2.1, hhit]
      · simp only [Bool.not_eq_true] at hhit
        have hpath : b.chordNeighbors s ((nx, ny) :: rest) =
            (b.reveal s nx ny).1.chordNeighbors s rest := by
          rw [Board.chordNeighbors_cons, if_pos hg, hhit]
          simp
        have hrest' : ∀ p ∈ rest, (b.reveal s nx ny).1.in_bounds p.1 p.2 = true := by
          intro p hp
          rw [Board.in_bounds_congr hRF.2.1 hRF.2.2.1]
          exact hrest p hp
        have hih := ih (b.reveal s nx ny).1 hRF.1 hRF.2.2.2.1 hrest'
        rw [hpath]
        refine ⟨hih.1, hih.2.1.trans hRF.2.1, hih.2.2.1.trans hRF.2.2.1, hih.2.2.2.1,
          fun u v => ⟨(hih.2.2.2.2.1 u v).1.trans (hRF.2.2.2.2.1 u v).1,
            (hih.2.2.2.2.1 u v).2.trans (hRF.2.2.2.2.1 u v).2.1⟩,
          fun u v h => hih.2.2.2.2.2.1 u v (hRF.2.2.2.2.2 u v h), ?_, ?_⟩
        · intro hdone p hp
          rcases List.mem_cons.mp hp with rfl | hmem
          · exact Or.inr (hih.2.2.2.2.2.1 nx ny hRH.2.2)
          · exact hih.2.2.2.2.2.2.1 hdone p hmem
        · intro hdone
          obtain ⟨pre, m, post, hsplit, heq, hmine, hrev⟩ := hih.2.2.2.2.2.2.2 hdone
          refine ⟨(nx, ny) :: pre, m, post, by rw [hsplit, List.cons_append], ?_, hmine, hrev⟩
          rw [List.cons_append, Board.chordNeighbors_cons, if_pos hg, hhit]
          simpa using heq
    · have hfr : (b.getCell nx ny).flagged = true ∨ (b.getCell nx ny).revealed = true := by
        by_contra hcon
        push_neg at hcon
        simp only [Bool.not_eq_true] at hcon
        exact hg (by simp [hcon.1, hcon.2])
      have hpath : b.chordNeighbors s ((nx, ny) :: rest) = b.chordNeighbors s rest := by
        rw [Board.chordNeighbors_cons, if_neg hg]
      have hih := ih b hwf hmp hrest
      rw [hpath]
      refine ⟨hih.1, hih.2.1, hih.2.2.1, hih.2.2.2.1, hih.2.2.2.2.1,
        hih.2.2.2.2.2.1, ?_, ?_⟩
      · intro hdone p hp
        rcases List.mem_cons.mp hp with rfl | hmem
        · rcases hfr with hfl | hrv
          · exact Or.inl (((hih.2.2.2.2.1 nx ny).1).trans hfl)
          · exact Or.inr (hih.2.2.2.2.2.1 nx ny hrv)
        · exact hih.2.2.2.2.2.2.1 hdone p hmem
      · intro hdone
        obtain ⟨pre, m, post, hsplit, heq, hmine, hrev⟩ := hih.2.2.2.2.2.2.2 hdone
        refine ⟨(nx, ny) :: pre, m, post, by rw [hsplit, List.cons_append], ?_, hmine, hrev⟩
        rw [List.cons_append, Board.chordNeighbors_cons, if_neg hg]
        exact heq

/-- C8: the chord on `(x, y)`.  If the cell is unrevealed, has
non-positive adjacency, or its flagged-neighbor count differs from its
adjacency, the chord is a no-op returning the board unchanged.
Otherwise it runs the normal `reveal` on the neighbors: no flag or mine
bit changes, revealing is monotone, and either no reveal hits a mine —
then every neighbor ends flagged (as it started) or revealed — or one
does: the loop stops right at the hit, the result is the neighbor loop
truncated after that cell, and that cell is a revealed mine. -/
theorem chord_spec (b : Board) (s : List (Int × Int)) (x y : Int)
    (hwf : b.WF) (hmp : b.mines_placed = true) :
    (((b.getCell x y).revealed = false ∨ (b.getCell x y).adj ≤ 0 ∨
        ((((b.neighbors x y).filter (fun p => (b.getCell p.1 p.2).flagged)).length : Int) ≠
          (b.getCell x y).adj)) →
      b.chord s x y = (b, false)) ∧
    ((b.getCell x y).revealed = true → 0 < (b.getCell x y).adj →
      ((((b.neighbors x y).filter (fun p => (b.getCell p.1 p.2).flagged)).length : Int) =
        (b.getCell x y).adj) →
      (∀ u v : Int,
        ((b.chord s x y).1.getCell u v).flagged = (b.getCell u v).flagged ∧
        ((b.chord s x y).1.getCell u v).mine = (b.getCell u v).mine) ∧
      (∀ u v : Int, (b.getCell u v).revealed = true →
        ((b.chord s x y).1.getCell u v).revealed = true) ∧
      ((b.chord s x y).2 = false → ∀ p ∈ b.neighbors x y,
        (b.getCell p.1 p.2).flagged = true ∨
        ((b.chord s x y).1.getCell p.1 p.2).revealed = true) ∧
      ((b.chord s x y).2 = true →
        ∃ pre m post, b.neighbors x y = pre ++ m :: post ∧
          b.chord s x y = b.chordNeighbors s (pre ++ [m]) ∧
          ((b.chord s x y).1.getCell m.1 m.2).mine = true ∧
          ((b.chord s x y).1.getCell m.1 m.2).revealed = true)) := by
  constructor
  · intro h
    by_cases hrev : (b.getCell x y).revealed = true
    · by_cases hadj0 : (b.getCell x y).adj ≤ 0
      · unfold Board.chord
        simp [hadj0]
      · have hcnt : ((((b.neighbors x y).filter
            (fun p => (b.getCell p.1 p.2).flagged)).length : Int) ≠ (b.getCell x y).adj) := by
          rcases h with h | h | h
          · rw [hrev] at h; cases h
          · exact absurd h hadj0
          · exact h
        unfold Board.chord
        simp [hrev, hadj0, hcnt]
    · simp only [Bool.not_eq_true] at hrev
      unfold Board.chord
      simp [hrev]
  · intro hrev hpos hcnt
    have hadj0 : ¬((b.getCell x y).adj ≤ 0) := by omega
    have hpath : b.chord s x y = b.chordNeighbors s (b.neighbors x y) := by
      unfold Board.chord
      simp [hrev, hadj0, hcnt]
    have hCN := Board.chordNeighbors_spec s (b.neighbors x y) b hwf hmp
      (fun p hp => b.mem_neighbors_in_bounds hp)
    rw [hpath]
    refine ⟨hCN.2.2.2.2.1, hCN.2.2.2.2.2.1, ?_, hCN.2.2.2.2.2.2.2⟩
    intro hdone p hp
    rcases hCN.2.2.2.2.2.2.1 hdone p hp with hfl | hrv
    · exact Or.inl (((hCN.2.2.2.2.1 p.1 p.2).1).symm.trans hfl)
    · exact Or.inr hrv

/-- Witness for C8: on the 3×3 board with its mine at `(2, 2)` flagged
and `(1, 1)` revealed with adjacency 1, the chord at `(1, 1)` fires
without hitting a mine and reveals the unflagged corner `(0, 0)`. -/
theorem chord_spec_witness :
    demo3Chordable.WF ∧ demo3Chordable.mines_placed = true ∧
    (demo3Chordable.getCell 1 1).revealed = true ∧
    (demo3Chordable.chord [] 1 1).2 = false ∧
    ((demo3Chordable.chord [] 1 1).1.getCell 0 0).revealed = true := by
  have h := chord_spec demo3Chordable [] 1 1 (by decide) (by decide)
  refine ⟨by decide, by decide, by decide, by decide, ?_⟩
  rcases (h.2 (by decide) (by decide) (by decide)).2.2.1 (by decide) (0, 0) (by decide)
    with hfl | hrv
  · exact absurd hfl (by decide)
  · exact hrv
